import Mathlib

/-!
Verification of the jump redirection service against its specification.

Modelling conventions, used throughout:
* Go strings are modelled as `List Char`; positions and lengths are counted in
  characters (the repository's catalog data and queries are ASCII, where Go's
  byte counts coincide with character counts).
* Unicode-aware Go helpers (`strings.ToLower`, `strings.TrimSpace`,
  `unicode.IsLetter`/`IsDigit`) are modelled on the ASCII alphabet.
* `float64` scores are modelled as exact rationals `ℚ`.
* The two transcendental ingredients, `math.Exp` inside
  `calculatePositionBonus` and `math.Log10` inside `RankCandidates`, cannot be
  represented exactly by computable rationals, so the development is
  parameterized by the functions `pb : Nat → ℚ` (the position bonus
  `10·exp(-0.3·position)`) and `lg : Int → ℚ` (`math.Log10` on integer
  arguments).  Theorems are proved for every such function, in particular for
  the true one; hypotheses used about them (such as `0 ≤ pb p`) are facts of
  the real functions.
* Side effects (HTTP 302 responses, Redis writes, log lines) are modelled by
  returning the redirect `Location` and the updated state explicitly; every
  code path of the search handler issues a 302, so a response is just its
  `Location` string.
-/

namespace Jump

/-- Go strings, modelled as lists of characters. -/
abbrev GoStr := List Char

/-- Coercion helper from Lean string literals to the Go string model. -/
def gs (s : String) : GoStr := s.data

/-- ASCII whitespace recognizer, modelling `unicode.IsSpace` on the ASCII range
as used by `strings.TrimSpace` and `strings.Fields`. -/
def isSpaceChar (c : Char) : Bool :=
  c = ' ' || c = '\t' || c = '\n' || c = '\r'

/-- ASCII lower-casing of one character, modelling `unicode.ToLower` on ASCII. -/
def lowerChar (c : Char) : Char :=
  if 'A' ≤ c ∧ c ≤ 'Z' then Char.ofNat (c.toNat + 32) else c

/-- Models `strings.ToLower`. -/
def toLower (s : GoStr) : GoStr := s.map lowerChar

/-- Models `strings.TrimSpace` (both ends). -/
def trimSpace (s : GoStr) : GoStr :=
  ((s.dropWhile isSpaceChar).reverse.dropWhile isSpaceChar).reverse

/-- Models `strings.Split` with a one-character separator: the list of
(possibly empty) parts between occurrences of `sep`. -/
def splitOnChar (sep : Char) : GoStr → List GoStr
  | [] => [[]]
  | c :: rest =>
    match splitOnChar sep rest with
    | [] => [[]]
    | p :: ps => if c = sep then [] :: p :: ps else (c :: p) :: ps

/-- Models `strings.HasPrefix s pre`. -/
def startsWith (s pre : GoStr) : Bool := pre.isPrefixOf s

/-- Models `strings.HasSuffix s suf`. -/
def endsWith (s suf : GoStr) : Bool := suf.isSuffixOf s

/-- Models `strings.Contains s sub`. -/
def containsSub (s sub : GoStr) : Bool :=
  match s with
  | [] => sub.isEmpty
  | _ :: rest => sub.isPrefixOf s || containsSub rest sub

/-- Models `strings.Index s sub` under the precondition `containsSub s sub`
(the Go function returns -1 otherwise; that value is never used by the code
modelled here). -/
def indexSub (s sub : GoStr) : Nat :=
  match s with
  | [] => 0
  | _ :: rest => if sub.isPrefixOf s then 0 else indexSub rest sub + 1

/-- Models `strings.TrimPrefix s pre`. -/
def trimLead (s pre : GoStr) : GoStr :=
  if startsWith s pre then s.drop pre.length else s

/-- Splitting on every character satisfying `p`, producing possibly empty
parts (helper for `fields`). -/
def splitOnPred (p : Char → Bool) : GoStr → List GoStr
  | [] => [[]]
  | c :: rest =>
    match splitOnPred p rest with
    | [] => [[]]
    | q :: ps => if p c then [] :: q :: ps else (c :: q) :: ps

/-- Models `strings.Fields`: the maximal runs of non-whitespace characters. -/
def fields (s : GoStr) : List GoStr :=
  (splitOnPred isSpaceChar s).filter (fun part => part ≠ [])

/-- Models `strings.ContainsRune s c` (used by `calculateSimilarity`). -/
def containsRune (s : GoStr) (c : Char) : Bool := s.contains c

/-- ASCII letter-or-digit recognizer, modelling
`unicode.IsLetter(r) || unicode.IsDigit(r)` on the ASCII range. -/
def isAlphaNumChar (c : Char) : Bool :=
  ('a' ≤ c && c ≤ 'z') || ('A' ≤ c && c ≤ 'Z') || ('0' ≤ c && c ≤ '9')

/-! ## Query parsing (`internal/domain/resolver.go`) -/

/-- `Query` from `resolver.go`: a parsed user input. -/
structure Query where
  raw : GoStr
  fragments : List GoStr
  hasDot : Bool
  topLevelFragments : List GoStr
  subdomainFragments : List GoStr
  deriving Repr, DecidableEq

/-- `splitAndClean` from `resolver.go`: split by the separator, trim each part,
keep the nonempty ones.  The source always passes the separator `" "`. -/
def splitAndClean (s : GoStr) (sep : Char) : List GoStr :=
  (splitOnChar sep s).foldr
    (fun part acc =>
      let part := trimSpace part
      if part = [] then acc else part :: acc) []

/-- `ParseQuery` from `resolver.go`. -/
def parseQuery (input0 : GoStr) : Query :=
  let input := trimSpace (toLower input0)
  if input = [] then ⟨input, [], false, [], []⟩
  else
    let hasDot := containsSub input (gs ".")
    if hasDot then
      let dotParts := splitOnChar '.' input
      let topLevelFragments :=
        match dotParts with
        | [] => []
        | p :: _ => if p = [] then [] else splitAndClean p ' '
      let subdomainFragments :=
        (dotParts.drop 1).foldl
          (fun acc p => if p = [] then acc else acc ++ splitAndClean p ' ') []
      ⟨input, topLevelFragments ++ subdomainFragments, true,
        topLevelFragments, subdomainFragments⟩
    else
      let fragments := splitAndClean input ' '
      ⟨input, fragments, false, fragments, []⟩

/-- `HostnameFragments` from `resolver.go`. -/
def hostnameFragments (hostname : GoStr) : List GoStr :=
  splitOnChar '.' (toLower hostname)

/-- `normalizeFragment` from `resolver.go`: keep letters and digits, lowered;
drop every other character. -/
def normalizeFragment (s : GoStr) : GoStr :=
  s.filterMap (fun c => if isAlphaNumChar c then some (lowerChar c) else none)

/-! Spec-side definitions for claim C5, following the claim's words: the
trimmed lowercased input is split into at most two logical parts at the FIRST
dot only; `subdomain_fragments` are the whitespace tokens of the entire
remainder after the first dot. -/

/-- The part of `s` strictly before the first occurrence of `c`. -/
def beforeChar (c : Char) (s : GoStr) : GoStr := s.takeWhile (fun x => x ≠ c)

/-- The part of `s` strictly after the first occurrence of `c`. -/
def afterChar (c : Char) (s : GoStr) : GoStr :=
  (s.dropWhile (fun x => x ≠ c)).drop 1

/-- Claim C5's reading of the parser: `top_level_fragments` are the whitespace
tokens of the part before the first dot and `subdomain_fragments` are the
whitespace tokens of the entire remainder after the first dot, dots after the
first creating no further token boundaries. -/
def claimParseTwoParts (input0 : GoStr) : List GoStr × List GoStr :=
  let input := trimSpace (toLower input0)
  (splitAndClean (beforeChar '.' input) ' ',
   splitAndClean (afterChar '.' input) ' ')

/-- Amended reading of C5: every dot is a boundary; `subdomain_fragments` are
the whitespace tokens of the successive dot-separated parts of the remainder
after the first dot, concatenated in order. -/
def amendedSubdomainFragments (input0 : GoStr) : List GoStr :=
  let input := trimSpace (toLower input0)
  (splitOnChar '.' (afterChar '.' input)).foldl
    (fun acc p => acc ++ splitAndClean p ' ') []

/-! ## Catalog entities (`internal/domain`) -/

/-- `Service` from `internal/domain` (timestamps are abstract instants
modelled as integers; the Go zero time is the instant `0`). -/
structure Service where
  id : GoStr
  hostname : GoStr
  name : GoStr
  sources : List GoStr
  lastSeenAt : Int
  counter : Int
  createdAt : Int
  updatedAt : Int
  lastUsedAt : Int
  disabled : Bool
  deriving Repr, DecidableEq

/-- `Bookmark` from `internal/domain/bookmark.go`. -/
structure Bookmark where
  id : GoStr
  abbr : GoStr
  url : GoStr
  sources : List GoStr
  createdAt : Int
  updatedAt : Int
  disabled : Bool
  deriving Repr, DecidableEq

/-! ## Scoring (`internal/domain/scoring.go`) -/

/-- `ScoreExactMatch` from `scoring.go`. -/
def ScoreExactMatch : ℚ := 100

/-- `ScorePrefixMatch` from `scoring.go`. -/
def ScorePrefixMatch : ℚ := 75

/-- `ScoreSubstringMatch` from `scoring.go`. -/
def ScoreSubstringMatch : ℚ := 50

/-- `ScoreFuzzyMatch` from `scoring.go`. -/
def ScoreFuzzyMatch : ℚ := 25

/-- `ScorePositionBonus` from `scoring.go`. -/
def ScorePositionBonus : ℚ := 10

/-- `ScoreLengthBonus` from `scoring.go`. -/
def ScoreLengthBonus : ℚ := 5

/-- `ScoreExactHostnameBonus` from `scoring.go`. -/
def ScoreExactHostnameBonus : ℚ := 200

/-- `ScoreUsageWeight` from `scoring.go`. -/
def ScoreUsageWeight : ℚ := 1 / 10

/-- `Candidate` from `scoring.go`. -/
structure Candidate where
  service : Service
  lexicalScore : ℚ
  usageScore : ℚ
  totalScore : ℚ
  deriving Repr, DecidableEq

/-- `calculateSimilarity` from `scoring.go`: the ratio of characters of `s1`
(counted with multiplicity, in iteration order) that occur somewhere in `s2`,
over the length of `s1`. -/
def calculateSimilarity (s1 s2 : GoStr) : ℚ :=
  if s1 = [] ∨ s2 = [] then 0
  else (s1.countP (fun c => containsRune s2 c) : ℚ) / (s1.length : ℚ)

/-- `scoreFragment` from `scoring.go`, parameterized by the position-bonus
function `pb` (the source's `calculatePositionBonus`, which computes
`10 · exp(-0.3 · position)` in `float64`). -/
def scoreFragment (pb : Nat → ℚ) (queryFrag hostFrag : GoStr) (position : Nat) : ℚ :=
  if normalizeFragment queryFrag = [] ∨ normalizeFragment hostFrag = [] then 0
  else if normalizeFragment queryFrag = normalizeFragment hostFrag then
    ScoreExactMatch + pb position
  else if startsWith (normalizeFragment hostFrag) (normalizeFragment queryFrag) then
    ScorePrefixMatch + pb position
  else if containsSub (normalizeFragment hostFrag) (normalizeFragment queryFrag) then
    ScoreSubstringMatch +
      ScorePositionBonus *
        (1 - (indexSub (normalizeFragment hostFrag) (normalizeFragment queryFrag) : ℚ) /
          ((normalizeFragment hostFrag).length : ℚ))
  else if 1 / 2 < calculateSimilarity (normalizeFragment queryFrag) (normalizeFragment hostFrag) then
    ScoreFuzzyMatch * calculateSimilarity (normalizeFragment queryFrag) (normalizeFragment hostFrag)
  else 0

/-- The accumulation loop shared by `scoreTopLevelOnly` and
`scoreWithSubdomains`: sum of per-fragment scores against the first hostname
label, position 0. -/
def sumFragmentScores (pb : Nat → ℚ) (queryFragments : List GoStr) (topLevel : GoStr) : ℚ :=
  queryFragments.foldl (fun acc qFrag => acc + scoreFragment pb qFrag topLevel 0) 0

/-- `scoreTopLevelOnly` from `scoring.go`. -/
def scoreTopLevelOnly (pb : Nat → ℚ) (queryFragments hostFragments : List GoStr) : ℚ :=
  if queryFragments = [] ∨ hostFragments = [] then 0
  else if queryFragments.length = 1 ∧ queryFragments.headI = hostFragments.headI then
    ScoreExactMatch + ScoreExactHostnameBonus
  else if 0 < sumFragmentScores pb queryFragments hostFragments.headI ∧
      hostFragments.headI.length < 10 then
    sumFragmentScores pb queryFragments hostFragments.headI + ScoreLengthBonus
  else sumFragmentScores pb queryFragments hostFragments.headI

/-- The inner best-over-subdomain-labels loop of `scoreWithSubdomains`: for one
query fragment, the best `scoreFragment` over the non-first hostname labels,
the position being the label's index among them. -/
def bestSubdomainScore (pb : Nat → ℚ) (qFrag : GoStr) (subdomains : List GoStr) : ℚ :=
  subdomains.enum.foldl
    (fun best p =>
      if best < scoreFragment pb qFrag p.2 p.1 then scoreFragment pb qFrag p.2 p.1 else best) 0

/-- The subdomain-fragments accumulation loop of `scoreWithSubdomains`. -/
def sumSubdomainScores (pb : Nat → ℚ) (subdomainFragments subdomains : List GoStr) : ℚ :=
  subdomainFragments.foldl (fun acc qFrag => acc + bestSubdomainScore pb qFrag subdomains) 0

/-- `scoreWithSubdomains` from `scoring.go`. -/
def scoreWithSubdomains (pb : Nat → ℚ) (query : Query) (hostFragments : List GoStr) : ℚ :=
  if query.fragments = [] ∨ hostFragments = [] then 0
  else if query.subdomainFragments = [] then 0
  else if hostFragments.length < 2 then 0
  else if sumSubdomainScores pb query.subdomainFragments (hostFragments.drop 1) = 0 then 0
  else
    sumFragmentScores pb query.topLevelFragments hostFragments.headI +
      sumSubdomainScores pb query.subdomainFragments (hostFragments.drop 1)

/-- `Score` from `scoring.go` (the `nil`-argument guards of the Go function do
not arise in the value-based model). -/
def score (pb : Nat → ℚ) (query : Query) (service : Service) : ℚ :=
  if query.hasDot then
    scoreWithSubdomains pb query (hostnameFragments (toLower service.hostname))
  else scoreTopLevelOnly pb query.fragments (hostnameFragments (toLower service.hostname))

/-! ## Bubble sort (`sortCandidates` / `sortBookmarkCandidates`)

The two Go functions are the same in-place bubble sort, descending on a score
field, swapping adjacent elements exactly when `key a < key b`: the outer
loop runs `i = 0 … n-2` and the inner loop compares the adjacent pairs among
the first `n - i` elements.  It is embedded functionally: `bubbleStep` is one
left-to-right pass carrying the currently smaller element rightwards,
`bubblePassUpTo k` is one pass over the first `k` elements (the inner loop of
outer iteration `i` with `k = n - i`), and `bubbleSortBy` runs the outer
loop.  The theorem `bubbleSortBy_eq_iterate` below shows this equals `n - 1`
unrestricted passes: the skipped tail is already sorted and minimal, so the
comparisons the Go loop omits could never swap. -/

/-- One bubble pass, having already consumed `a` as the current left element. -/
def bubbleStep (key : α → ℚ) (a : α) : List α → List α
  | [] => [a]
  | b :: rest =>
    if key a < key b then b :: bubbleStep key a rest
    else a :: bubbleStep key b rest

/-- One full bubble pass over a list. -/
def bubblePass (key : α → ℚ) : List α → List α
  | [] => []
  | a :: rest => bubbleStep key a rest

/-- One bubble pass over the first `k` elements only: the Go inner loop of an
outer iteration whose remaining range is `k`. -/
def bubblePassUpTo (key : α → ℚ) (k : Nat) (l : List α) : List α :=
  bubblePass key (l.take k) ++ l.drop k

/-- The outer loop of the Go bubble sort, counting down: `goPasses key j` has
`j` passes left, the next one bounded to the first `j + 2` elements.  On a
list of length `n` the top-level call is `goPasses key (n - 1)`, so the
successive passes are bounded to the first `n, n - 1, …, 2` elements, exactly
the Go bounds `n - i` for `i = 0 … n - 2`. -/
def goPasses (key : α → ℚ) : Nat → List α → List α
  | 0, l => l
  | j + 1, l => goPasses key j (bubblePassUpTo key (j + 2) l)

/-- Descending bubble sort by a rational key: the Go double loop. -/
def bubbleSortBy (key : α → ℚ) (l : List α) : List α :=
  goPasses key (l.length - 1) l

/-- `sortCandidates` from `scoring.go`. -/
def sortCandidates (candidates : List Candidate) : List Candidate :=
  bubbleSortBy (fun c => c.totalScore) candidates

/-- The candidate record `RankCandidates` builds for one eligible service:
lexical score, usage score `log10(counter+1) · ScoreUsageWeight · 100` (0
when the counter is not positive), and their sum. -/
def mkCandidate (pb : Nat → ℚ) (lg : Int → ℚ) (query : Query) (service : Service) : Candidate :=
  ⟨service, score pb query service,
    (if 0 < service.counter then lg (service.counter + 1) * ScoreUsageWeight * 100 else 0),
    score pb query service +
      (if 0 < service.counter then lg (service.counter + 1) * ScoreUsageWeight * 100 else 0)⟩

/-- The filter-and-score loop of `RankCandidates` from `scoring.go`,
parameterized by `lg` for `math.Log10`. -/
def buildCandidates (pb : Nat → ℚ) (lg : Int → ℚ) (query : Query) :
    List Service → List Candidate
  | [] => []
  | service :: rest =>
    if service.disabled then buildCandidates pb lg query rest
    else if score pb query service = 0 then buildCandidates pb lg query rest
    else mkCandidate pb lg query service :: buildCandidates pb lg query rest

/-- `RankCandidates` from `scoring.go`. -/
def rankCandidates (pb : Nat → ℚ) (lg : Int → ℚ) (query : Query)
    (services : List Service) : List Candidate :=
  sortCandidates (buildCandidates pb lg query services)

/-! ## Bookmark scoring (`internal/domain/bookmark_scoring.go`) -/

/-- `BookmarkCandidate` from `bookmark_scoring.go`. -/
structure BookmarkCandidate where
  bookmark : Bookmark
  bscore : ℚ
  deriving Repr, DecidableEq

/-- The body of `ScoreBookmark` after both sides are lowered (and the query
trimmed): exact, then whole-query prefix/substring, then the word-based and
character-similarity fuzzy fallbacks. -/
def scoreBookmarkBody (queryStr abbr : GoStr) : ℚ :=
  if queryStr = abbr then ScoreExactMatch + ScoreExactHostnameBonus
  else if startsWith abbr queryStr then ScorePrefixMatch
  else if containsSub abbr queryStr then
    ScoreSubstringMatch +
      ScorePositionBonus * (1 - (indexSub abbr queryStr : ℚ) / (abbr.length : ℚ))
  else if 1 < (fields queryStr).length ∧ (fields queryStr).all (fun w => containsSub abbr w) then
    ScoreFuzzyMatch
  else if 1 / 2 < calculateSimilarity queryStr abbr then
    ScoreFuzzyMatch * calculateSimilarity queryStr abbr
  else 0

/-- `ScoreBookmark` from `bookmark_scoring.go`. -/
def scoreBookmark (queryStr0 : GoStr) (bookmark : Bookmark) : ℚ :=
  if queryStr0 = [] then 0
  else
    scoreBookmarkBody (toLower (trimSpace queryStr0)) (toLower bookmark.abbr)

/-- The filter-and-score loop of `RankBookmarkCandidates`. -/
def buildBookmarkCandidates (queryStr : GoStr) : List Bookmark → List BookmarkCandidate
  | [] => []
  | bookmark :: rest =>
    if bookmark.disabled then buildBookmarkCandidates queryStr rest
    else if scoreBookmark queryStr bookmark = 0 then buildBookmarkCandidates queryStr rest
    else ⟨bookmark, scoreBookmark queryStr bookmark⟩ :: buildBookmarkCandidates queryStr rest

/-- `RankBookmarkCandidates` from `bookmark_scoring.go`. -/
def rankBookmarkCandidates (queryStr : GoStr) (bookmarks : List Bookmark) :
    List BookmarkCandidate :=
  bubbleSortBy (fun c => c.bscore) (buildBookmarkCandidates queryStr bookmarks)

/-! ## Memory index (`internal/index/memory.go`)

The two Go maps are modelled as association lists with unique keys; Go map
iteration order is arbitrary, the model iterates in insertion order. -/

/-- Replace the value at `k` if present, else append (Go map assignment). -/
def upsert (m : List (GoStr × α)) (k : GoStr) (v : α) : List (GoStr × α) :=
  if m.any (fun p => p.1 = k) then
    m.map (fun p => if p.1 = k then (k, v) else p)
  else m ++ [(k, v)]

/-- Association-list lookup (Go map read). -/
def lookupAssoc (m : List (GoStr × α)) (k : GoStr) : Option α :=
  match m.find? (fun p => p.1 = k) with
  | some p => some p.2
  | none => none

/-- `MemoryIndex.UpdateServices`: build a fresh map from the list and swap. -/
def updateServices (services : List Service) : List (GoStr × Service) :=
  services.foldl (fun m service => upsert m service.id service) []

/-- `MemoryIndex.GetAllServices`. -/
def getAllServices (m : List (GoStr × Service)) : List Service :=
  m.map Prod.snd

/-- `MemoryIndex.IncrementCounter`: no-op if absent, else `counter += 1`. -/
def incrementCounter (m : List (GoStr × Service)) (id : GoStr) : List (GoStr × Service) :=
  m.map (fun p => if p.1 = id then (p.1, { p.2 with counter := p.2.counter + 1 }) else p)

/-- `MemoryIndex.DeleteService`. -/
def deleteService (m : List (GoStr × Service)) (id : GoStr) : List (GoStr × Service) :=
  m.filter (fun p => p.1 ≠ id)

/-! ## Search handler (`internal/httpserver/handlers/search.go`)

The handler's collaborators are modelled as follows: the Redis cache is an
association list from raw query to hostname; `domain.ValidateTLS` outcomes are
an oracle `probe : GoStr → Bool` (true = no error); `store.IncrementUsage` and
`MemoryIndex.IncrementCounter` target the same service id at the same call
sites, recorded in the result's `incremented` list and applied to the index.
Every path of the Go handler answers with `http.Redirect(..., StatusFound)`,
so a response is modelled by its `Location` value alone. -/

/-- The handler configuration subset of `deps.Deps` used by `Search`. -/
structure Deps where
  homepageURL : GoStr
  allowedDomains : List GoStr
  maxCandidates : Nat
  skipTLSValidation : Bool
  deriving Repr, DecidableEq

/-- The mutable state touched by the search handler. -/
structure ServerState where
  services : List (GoStr × Service)
  bookmarks : List (GoStr × Bookmark)
  cache : List (GoStr × GoStr)
  deriving Repr, DecidableEq

/-- One execution's outcome: the 302 `Location`, the updated state, and the
service ids whose usage counters were incremented. -/
structure SearchResult where
  location : GoStr
  state : ServerState
  incremented : List GoStr
  deriving Repr, DecidableEq

/-- `isAllowedRedirect` from `search.go`. -/
def isAllowedRedirect (hostname : GoStr) (allowedDomains : List GoStr) : Bool :=
  let h := toLower hostname
  allowedDomains.any (fun d =>
    let d := toLower d
    h = d || endsWith h ('.' :: d))

/-- `matchInternalEndpoint` from `search.go`: the fixed endpoints are
`/infra`, `/healthz`, `/readyz`; return the unique one the lowercased query
is a leading part of, the empty string otherwise. -/
def matchInternalEndpoint (query0 : GoStr) : GoStr :=
  match [gs "/infra", gs "/healthz", gs "/readyz"].filter
      (fun e => startsWith e (toLower query0)) with
  | [e] => e
  | _ => []

/-- `handleInternalEndpoint` from `search.go`. -/
def handleInternalEndpoint (d : Deps) (host : GoStr) (st : ServerState)
    (query : GoStr) : SearchResult :=
  if matchInternalEndpoint query ≠ [] then
    ⟨gs "https://" ++ host ++ matchInternalEndpoint query, st, []⟩
  else ⟨d.homepageURL, st, []⟩

/-- Apply both usage-counter increments (store and memory index) for one id. -/
def applyIncrement (st : ServerState) (id : GoStr) : ServerState :=
  { st with services := incrementCounter st.services id }

/-- `handleCachedService` from `search.go`: the returned option is the
`Location` when the request was handled, `none` when it falls through to the
full search (possibly after invalidating the cache entry). -/
def handleCachedService (d : Deps) (probe : GoStr → Bool) (st : ServerState)
    (query : GoStr) : ServerState × List GoStr × Option GoStr :=
  match lookupAssoc st.cache query with
  | none => (st, [], none)
  | some cachedHostname =>
    if cachedHostname = [] then (st, [], none)
    else if probe cachedHostname then
      if isAllowedRedirect cachedHostname d.allowedDomains then
        (applyIncrement st cachedHostname, [cachedHostname],
          some (gs "https://" ++ cachedHostname))
      else (applyIncrement st cachedHostname, [cachedHostname], some d.homepageURL)
    else
      ({ st with cache := st.cache.filter (fun p => p.1 ≠ query) }, [], none)

/-- The candidate-validation loop of `handleServiceSearch`: skip candidates
not allowed by the redirect allow-list, skip probe failures unless
`skip_tls_validation` holds, and on the first success increment usage, cache
the resolution and redirect. -/
def validateLoop (d : Deps) (probe : GoStr → Bool) (st : ServerState)
    (query : GoStr) : List Candidate → SearchResult
  | [] => ⟨d.homepageURL, st, []⟩
  | candidate :: rest =>
    if ¬ isAllowedRedirect candidate.service.hostname d.allowedDomains then
      validateLoop d probe st query rest
    else if ¬ d.skipTLSValidation ∧ ¬ probe candidate.service.hostname then
      validateLoop d probe st query rest
    else
      ⟨gs "https://" ++ candidate.service.hostname,
        { applyIncrement st candidate.service.hostname with
            cache := upsert (applyIncrement st candidate.service.hostname).cache query
              candidate.service.hostname },
        [candidate.service.hostname]⟩

/-- `handleServiceSearch` from `search.go`: rank all services, cap to
`max_candidates` (0 means unlimited), then validate in rank order. -/
def handleServiceSearch (d : Deps) (probe : GoStr → Bool) (pb : Nat → ℚ)
    (lg : Int → ℚ) (st : ServerState) (query : GoStr) : SearchResult :=
  if getAllServices st.services = [] then ⟨d.homepageURL, st, []⟩
  else if rankCandidates pb lg (parseQuery query) (getAllServices st.services) = [] then
    ⟨d.homepageURL, st, []⟩
  else
    validateLoop d probe st query
      (if 0 < d.maxCandidates ∧ d.maxCandidates <
          (rankCandidates pb lg (parseQuery query) (getAllServices st.services)).length then
        (rankCandidates pb lg (parseQuery query) (getAllServices st.services)).take
          d.maxCandidates
      else rankCandidates pb lg (parseQuery query) (getAllServices st.services))

/-- `handleBookmarkSearch` from `search.go`: strip the `@`, trim, rank the
bookmarks, 302 to the top candidate's URL (no TLS probe, no allow-list). -/
def handleBookmarkSearch (d : Deps) (st : ServerState) (query : GoStr) : SearchResult :=
  if trimSpace (trimLead query (gs "@")) = [] then ⟨d.homepageURL, st, []⟩
  else if st.bookmarks.map Prod.snd = [] then ⟨d.homepageURL, st, []⟩
  else
    match rankBookmarkCandidates (trimSpace (trimLead query (gs "@")))
        (st.bookmarks.map Prod.snd) with
    | [] => ⟨d.homepageURL, st, []⟩
    | best :: _ => ⟨best.bookmark.url, st, []⟩

/-- `Search` from `search.go`: the whole `GET /search` handler body (`host`
is the request's `Host` header, used by the internal realm). -/
def searchHandler (d : Deps) (probe : GoStr → Bool) (pb : Nat → ℚ) (lg : Int → ℚ)
    (host : GoStr) (st : ServerState) (rawQ : GoStr) : SearchResult :=
  if trimSpace rawQ = [] then ⟨d.homepageURL, st, []⟩
  else if startsWith (trimSpace rawQ) (gs "@") then
    handleBookmarkSearch d st (trimSpace rawQ)
  else if startsWith (trimSpace rawQ) (gs "/") then
    handleInternalEndpoint d host st (trimSpace rawQ)
  else
    match handleCachedService d probe st (trimSpace rawQ) with
    | (st1, inc, some location) => ⟨location, st1, inc⟩
    | (st1, _, none) => handleServiceSearch d probe pb lg st1 (trimSpace rawQ)

/-! ## Source loader and mapper (`internal/sources/homepage`) -/

/-- `extractServiceName` from `mapper.go`: the first DNS label. -/
def extractServiceName (hostname : GoStr) : GoStr :=
  match splitOnChar '.' hostname with
  | [] => hostname
  | part :: _ => part

/-- Models `url.Parse(href).Hostname()` for the catalog's absolute URLs: the
authority between `"://"` and the next `/`, with a `:port` stripped; hrefs
without `"://"` parse as relative URLs whose hostname is empty.  (Inputs on
which `url.Parse` errors are not modelled; the mapper drops those entries just
as it drops empty hostnames.) -/
def urlHostname (href : GoStr) : GoStr :=
  if containsSub href (gs "://") then
    (((href.drop (indexSub href (gs "://") + 3)).takeWhile (fun c => c ≠ '/')).takeWhile
      (fun c => c ≠ ':'))
  else []

/-- `Mapper.MapServices` from `mapper.go`, the nested group/service YAML maps
flattened to the list of `href` values in iteration order: entries with empty
`href` or empty parsed hostname are dropped, survivors get `Counter: 0`,
`Sources: [homepage]`, `LastSeenAt: now`; an empty result is the error case,
modelled as `none`. -/
def mapServices (now : Int) (hrefs : List GoStr) : Option (List Service) :=
  let services := hrefs.filterMap (fun href =>
    if href = [] then none
    else
      let hostname := urlHostname href
      if hostname = [] then none
      else some
        ({ id := hostname, hostname := hostname, name := extractServiceName hostname,
           sources := [gs "homepage"], lastSeenAt := now, counter := 0, createdAt := 0,
           updatedAt := 0, lastUsedAt := 0, disabled := false } : Service))
  if services = [] then none else some services

/-- Fuel-indexed scanner underlying `stripTemplateVariables`: at each
position, either the regular expression matches there (two opening braces, a
nonempty brace-free run, two closing braces) and the whole match is consumed
and replaced, or one character is copied and the scan advances. -/
def stripTVGo : Nat → GoStr → GoStr
  | 0, data => data
  | _ + 1, [] => []
  | fuel + 1, c :: rest =>
    if c = '\x7b' ∧ rest.head? = some '\x7b' then
      let run := rest.tail.takeWhile (fun x => x ≠ '\x7d')
      let after := rest.tail.dropWhile (fun x => x ≠ '\x7d')
      if run ≠ [] ∧ after.take 2 = gs "\x7d\x7d" then
        '\x22' :: '\x22' :: stripTVGo fuel (after.drop 2)
      else c :: stripTVGo fuel rest
    else c :: stripTVGo fuel rest

/-- `stripTemplateVariables` from the loader: every occurrence of the regular
expression `\{\{[^}]+\}\}` (two opening braces, one or more non-`}`
characters, two closing braces) is replaced, leftmost first, by the
two-character replacement text `""`; all other characters are copied.  The
scan consumes at least one character per step, so `data.length` steps of fuel
make the fuel-indexed recursion total. -/
def stripTemplateVariables (data : GoStr) : GoStr :=
  stripTVGo data.length data

/-! ## Reconciler (`internal/scheduler/homepage_reload.go` and
`internal/scheduler/garbage_collector.go`) -/

/-- `HomepageReloader.Reload`: load and map the catalog (a load or map error
keeps the previous index), mark index entries from the homepage source that
vanished from the catalog as disabled with `updated_at = now`, append them,
and atomically replace the index.  The single instant `now` stands for the
`time.Now()` calls of one pass. -/
def reload (now : Int) (catalog : List GoStr) (idx : List (GoStr × Service)) :
    List (GoStr × Service) :=
  match mapServices now catalog with
  | none => idx
  | some newServices =>
    let existingServices :=
      (getAllServices idx).filter (fun s => s.sources.contains (gs "homepage"))
    let newServiceIDs := newServices.map (fun s => s.id)
    let disabledServices :=
      (existingServices.filter (fun s => ¬ newServiceIDs.contains s.id)).map
        (fun s => { s with disabled := true, updatedAt := now })
    updateServices (newServices ++ disabledServices)

/-- The per-service deletion test of `GarbageCollector.collectServices`:
disabled, a non-zero `updated_at`, and disabled for at least the threshold. -/
def gcShouldDelete (now threshold : Int) (s : Service) : Bool :=
  s.disabled && !(s.updatedAt == 0) && decide (threshold ≤ now - s.updatedAt)

/-- `GarbageCollector.collectServices`: delete every service satisfying
`gcShouldDelete` from the index. -/
def collectServices (now threshold : Int) (idx : List (GoStr × Service)) :
    List (GoStr × Service) :=
  idx.filter (fun p => ! gcShouldDelete now threshold p.2)

/-! ## Spec-side definitions used to state the claims -/

/-- Modelled from the spec: the host component of an absolute URL, as used by
claim C1's phrase "a URL whose host is allowed" (the scheme is stripped and
the authority read up to the first `/`, `:` or `?`). -/
def urlHost (u : GoStr) : GoStr :=
  let rest :=
    if startsWith u (gs "https://") then u.drop 8
    else if startsWith u (gs "http://") then u.drop 7
    else u
  rest.takeWhile (fun c => c ≠ '/' ∧ c ≠ ':' ∧ c ≠ '?')

/-- Fuel-indexed scanner underlying `claimStripEmpty`. -/
def claimStripGo : Nat → GoStr → GoStr
  | 0, data => data
  | _ + 1, [] => []
  | fuel + 1, c :: rest =>
    if c = '\x7b' ∧ rest.head? = some '\x7b' then
      let run := rest.tail.takeWhile (fun x => x ≠ '\x7d')
      let after := rest.tail.dropWhile (fun x => x ≠ '\x7d')
      if run ≠ [] ∧ after.take 2 = gs "\x7d\x7d" then
        claimStripGo fuel (after.drop 2)
      else c :: claimStripGo fuel rest
    else c :: claimStripGo fuel rest

/-- Claim C9's reading of the loader's placeholder substitution: the same
leftmost scan as `stripTemplateVariables`, but each matched placeholder is
replaced by the EMPTY string. -/
def claimStripEmpty (data : GoStr) : GoStr :=
  claimStripGo data.length data

/-- Claim C10's reading of the fuzzy similarity: the fraction of DISTINCT
characters of the query fragment that occur in the host fragment. -/
def claimSetSimilarity (q h : GoStr) : ℚ :=
  ((q.dedup.countP (fun c => containsRune h c) : ℚ)) / (q.length : ℚ)

/-- Claim C10's predicted fuzzy score. -/
def claimFuzzyScore (q h : GoStr) : ℚ :=
  if 1 / 2 < claimSetSimilarity q h then ScoreFuzzyMatch * claimSetSimilarity q h else 0

/-- Multiplicity-counting similarity, the amended reading of C10: the fraction
of the query fragment's character POSITIONS whose character occurs in the host
fragment. -/
def amendedMultisetSimilarity (q h : GoStr) : ℚ :=
  ((q.countP (fun c => containsRune h c) : ℚ)) / (q.length : ℚ)

/-! ## Concrete scenarios used by counterexamples and bug witnesses -/

/-- A bookmark whose target is an external URL outside the allow-list. -/
def chatBookmark : Bookmark :=
  ⟨gs "a1b2c3d4e5f60708", gs "ChatGPT", gs "https://chat.openai.com/",
    [gs "homepage"], 0, 0, false⟩

/-- Handler configuration with `allowed_hosts`-derived domain `example.com`. -/
def c1Deps : Deps := ⟨gs "https://home.example.com", [gs "example.com"], 3, true⟩

/-- Server state holding only `chatBookmark`. -/
def c1State : ServerState := ⟨[], [(chatBookmark.id, chatBookmark)], []⟩

/-- The bookmark-realm execution `Resolve("@chatgpt")` on `c1State`. -/
def c1Result : SearchResult :=
  searchHandler c1Deps (fun _ => true) (fun _ => 1) (fun _ => 1)
    (gs "jump.example.com") c1State (gs "@chatgpt")

/-- A service carrying a positive usage counter, seen from the catalog. -/
def jellyWithCounter : Service :=
  ⟨gs "jellyfin.example.com", gs "jellyfin.example.com", gs "jellyfin",
    [gs "homepage"], 0, 5, 0, 0, 0, false⟩

/-- Index holding only `jellyWithCounter`. -/
def c2Index : List (GoStr × Service) := updateServices [jellyWithCounter]

/-- A catalog that still lists `jellyWithCounter`'s href. -/
def c2Catalog : List GoStr := [gs "https://jellyfin.example.com"]

/-- A service whose hostname is no longer covered by the allow-list. -/
def staleService : Service :=
  ⟨gs "old.example.org", gs "old.example.org", gs "old",
    [gs "homepage"], 0, 3, 0, 0, 0, false⟩

/-- Handler configuration whose allow-list no longer covers `staleService`. -/
def c3Deps : Deps := ⟨gs "https://home.example.com", [gs "example.com"], 3, false⟩

/-- State with `staleService` in the index and a stale cached resolution for
the query `q`. -/
def c3State : ServerState :=
  ⟨updateServices [staleService], [], [(gs "q", gs "old.example.org")]⟩

/-- The cached-path execution `Resolve("q")` on `c3State`, every probe
succeeding. -/
def c3Result : SearchResult :=
  searchHandler c3Deps (fun _ => true) (fun _ => 1) (fun _ => 1)
    (gs "jump.example.com") c3State (gs "q")

/-- C4 scenario: the catalog after `gone.example.com` vanished. -/
def gcCatalog : List GoStr := [gs "https://kept.example.com"]

/-- C4 scenario: the service that vanishes from the catalog at the first pass. -/
def vanishedService : Service :=
  ⟨gs "gone.example.com", gs "gone.example.com", gs "gone",
    [gs "homepage"], 0, 0, 0, 0, 0, false⟩

/-- C4 scenario: the service the catalog keeps, as the mapper rebuilds it at
instant `m`. -/
def keptAt (m : Int) : Service :=
  ⟨gs "kept.example.com", gs "kept.example.com", gs "kept",
    [gs "homepage"], m, 0, 0, 0, 0, false⟩

/-- C4 scenario: the vanished service as re-stamped by the reload pass at
instant `m`. -/
def goneAt (m : Int) : Service :=
  { vanishedService with disabled := true, updatedAt := m }

/-- C4 scenario: initial index, both services present and enabled. -/
def gcState0 : List (GoStr × Service) := updateServices [keptAt 0, vanishedService]

/-- C4 scenario: the index shape after the reconciliation pass at instant `m`. -/
def gcExplicitState (m : Int) : List (GoStr × Service) :=
  [(gs "kept.example.com", keptAt m), (gs "gone.example.com", goneAt m)]

/-- One reconciliation step of the C4 scenario: the reload pass at instant
`k + 1` (days, one per `reload_interval`), then the GC pass at the same
instant with the default `gc_threshold` of 30 days. -/
def reconcileStep (k : Nat) (idx : List (GoStr × Service)) : List (GoStr × Service) :=
  collectServices ((k : Int) + 1) 30 (reload ((k : Int) + 1) gcCatalog idx)

/-- The C4 scenario's index after `n` reconciliation steps. -/
def gcStateAt : Nat → List (GoStr × Service)
  | 0 => gcState0
  | n + 1 => reconcileStep n (gcStateAt n)

/-! # Theorems -/

/-! ## Split lemmas for C5 -/

theorem splitOnChar_eq (c : Char) (s : GoStr) :
    splitOnChar c s =
      beforeChar c s ::
        (if containsSub s [c] = true then splitOnChar c (afterChar c s) else []) := by
  induction s with
  | nil => simp [splitOnChar, beforeChar, containsSub, List.isEmpty]
  | cons x rest ih =>
    by_cases hx : x = c
    · subst hx
      have hcon : containsSub (x :: rest) [x] = true := by
        simp [containsSub, List.isPrefixOf]
      rw [splitOnChar, ih]
      simp [hcon, beforeChar, afterChar, List.takeWhile, List.dropWhile, ih]
    · have hne : (c == x) = false := beq_eq_false_iff_ne.mpr (fun hcx => hx hcx.symm)
      have hcon : containsSub (x :: rest) [c] = containsSub rest [c] := by
        simp [containsSub, List.isPrefixOf, hne]
      have hbefore : beforeChar c (x :: rest) = x :: beforeChar c rest := by
        simp [beforeChar, List.takeWhile_cons, hx]
      have hafter : afterChar c (x :: rest) = afterChar c rest := by
        simp [afterChar, List.dropWhile_cons, hx]
      rw [splitOnChar, ih, hcon, hbefore, hafter]
      dsimp only
      rw [if_neg hx]

theorem splitAndClean_nil (sep : Char) : splitAndClean [] sep = [] := by
  simp [splitAndClean, splitOnChar, trimSpace]

theorem foldl_splitAndClean_skip_empty (l : List GoStr) (acc : List GoStr) :
    l.foldl (fun acc p => if p = [] then acc else acc ++ splitAndClean p ' ') acc =
      l.foldl (fun acc p => acc ++ splitAndClean p ' ') acc := by
  induction l generalizing acc with
  | nil => rfl
  | cons p rest ih =>
    by_cases hp : p = []
    · subst hp
      simp only [List.foldl_cons, if_pos rfl, splitAndClean_nil, List.append_nil]
      exact ih acc
    · simp only [List.foldl_cons, if_neg hp]
      exact ih _

/-- C5: the claim fails on the code: on the input `a.b.c` the parser yields
`subdomain_fragments = [b, c]`, while the claim's reading (the whole remainder
after the first dot, whitespace-split only) yields `[b.c]`. -/
theorem spec2_C5_counterexample :
    ¬ ((parseQuery (gs "a.b.c")).topLevelFragments = (claimParseTwoParts (gs "a.b.c")).1 ∧
       (parseQuery (gs "a.b.c")).subdomainFragments = (claimParseTwoParts (gs "a.b.c")).2) := by
  decide

/-- C5 (amended): for every input parsed with `has_dot = true`,
`top_level_fragments` are the whitespace tokens of the part before the first
dot, and `subdomain_fragments` are the whitespace tokens of the successive
dot-separated parts of the remainder after the first dot, concatenated in
order: every dot is a boundary, not only the first. -/
theorem parseQuery_hasDot_eq (input : GoStr) (h0 : trimSpace (toLower input) ≠ [])
    (hc : containsSub (trimSpace (toLower input)) (gs ".") = true) :
    parseQuery input =
      ⟨trimSpace (toLower input),
        (match splitOnChar '.' (trimSpace (toLower input)) with
          | [] => []
          | p :: _ => if p = [] then [] else splitAndClean p ' ') ++
        ((splitOnChar '.' (trimSpace (toLower input))).drop 1).foldl
          (fun acc p => if p = [] then acc else acc ++ splitAndClean p ' ') [],
        true,
        (match splitOnChar '.' (trimSpace (toLower input)) with
          | [] => []
          | p :: _ => if p = [] then [] else splitAndClean p ' '),
        ((splitOnChar '.' (trimSpace (toLower input))).drop 1).foldl
          (fun acc p => if p = [] then acc else acc ++ splitAndClean p ' ') []⟩ := by
  unfold parseQuery
  rw [if_neg h0, if_pos hc]

theorem parseQuery_hasDot_imp (input : GoStr) (h : (parseQuery input).hasDot = true) :
    trimSpace (toLower input) ≠ [] ∧
    containsSub (trimSpace (toLower input)) (gs ".") = true := by
  by_cases h0 : trimSpace (toLower input) = []
  · exfalso
    have hfalse : (parseQuery input).hasDot = false := by
      unfold parseQuery
      rw [if_pos h0]
    rw [hfalse] at h
    exact Bool.noConfusion h
  · refine ⟨h0, ?_⟩
    by_cases hc : containsSub (trimSpace (toLower input)) (gs ".") = true
    · exact hc
    · exfalso
      have hfalse : (parseQuery input).hasDot = false := by
        unfold parseQuery
        rw [if_neg h0, if_neg hc]
      rw [hfalse] at h
      exact Bool.noConfusion h

/-- C5 (amended): for every input parsed with `has_dot = true`,
`top_level_fragments` are the whitespace tokens of the part before the first
dot, and `subdomain_fragments` are the whitespace tokens of the successive
dot-separated parts of the remainder after the first dot, concatenated in
order: every dot is a boundary, not only the first. -/
theorem spec2_C5_amended (input : GoStr) (h : (parseQuery input).hasDot = true) :
    (parseQuery input).topLevelFragments = (claimParseTwoParts input).1 ∧
    (parseQuery input).subdomainFragments = amendedSubdomainFragments input := by
  obtain ⟨h0, hc⟩ := parseQuery_hasDot_imp input h
  rw [parseQuery_hasDot_eq input h0 hc]
  have hdot : gs "." = ['.'] := rfl
  rw [hdot] at hc
  have hsplit := splitOnChar_eq '.' (trimSpace (toLower input))
  rw [if_pos hc] at hsplit
  constructor
  · rw [hsplit]
    show (if beforeChar '.' (trimSpace (toLower input)) = [] then []
          else splitAndClean (beforeChar '.' (trimSpace (toLower input))) ' ') = _
    by_cases hb : beforeChar '.' (trimSpace (toLower input)) = []
    · rw [if_pos hb, claimParseTwoParts, hb, splitAndClean_nil]
    · rw [if_neg hb]
      rfl
  · rw [hsplit]
    show (splitOnChar '.' (afterChar '.' (trimSpace (toLower input)))).foldl
        (fun acc p => if p = [] then acc else acc ++ splitAndClean p ' ') [] = _
    rw [foldl_splitAndClean_skip_empty]
    rfl

/-- Witness for C5 (amended) at the concrete input `a.b c.d`. -/
theorem spec2_C5_witness :
    (parseQuery (gs "a.b c.d")).hasDot = true ∧
    ((parseQuery (gs "a.b c.d")).topLevelFragments = (claimParseTwoParts (gs "a.b c.d")).1 ∧
     (parseQuery (gs "a.b c.d")).subdomainFragments = amendedSubdomainFragments (gs "a.b c.d")) :=
  ⟨by decide, spec2_C5_amended (gs "a.b c.d") (by decide)⟩

/-! ## Scanner lemmas for C9 -/

theorem stripTVGo_fuel (fuel1 : Nat) :
    ∀ (fuel2 : Nat) (data : GoStr), data.length ≤ fuel1 → data.length ≤ fuel2 →
      stripTVGo fuel1 data = stripTVGo fuel2 data := by
  induction fuel1 with
  | zero =>
    intro fuel2 data h1 _
    have hdata : data = [] := List.length_eq_zero.mp (Nat.le_zero.mp h1)
    subst hdata
    cases fuel2 <;> rfl
  | succ f ih =>
    intro fuel2 data h1 h2
    cases data with
    | nil => cases fuel2 <;> rfl
    | cons c rest =>
      cases fuel2 with
      | zero => simp at h2
      | succ f2 =>
        rw [stripTVGo, stripTVGo]
        have hrest1 : rest.length ≤ f := by simp at h1; omega
        have hrest2 : rest.length ≤ f2 := by simp at h2; omega
        by_cases hbr : c = '\x7b' ∧ rest.head? = some '\x7b'
        · rw [if_pos hbr, if_pos hbr]
          by_cases hm : rest.tail.takeWhile (fun x => x ≠ '\x7d') ≠ [] ∧
              (rest.tail.dropWhile (fun x => x ≠ '\x7d')).take 2 = gs "\x7d\x7d"
          · rw [if_pos hm, if_pos hm]
            have htail : rest.tail.length ≤ rest.length := by cases rest <;> simp
            have hdw := ((rest.tail.dropWhile_suffix (fun x => x ≠ '\x7d')).sublist).length_le
            have hlen : ((rest.tail.dropWhile (fun x => x ≠ '\x7d')).drop 2).length ≤ rest.length := by
              simp only [List.length_drop]
              omega
            rw [ih f2 _ (by omega) (by omega)]
          · rw [if_neg hm, if_neg hm, ih f2 rest hrest1 hrest2]
        · rw [if_neg hbr, if_neg hbr, ih f2 rest hrest1 hrest2]

theorem strip_cons_advance (c : Char) (rest : GoStr)
    (h : ¬(c = '\x7b' ∧ rest.head? = some '\x7b') ∨
         ¬(rest.tail.takeWhile (fun x => x ≠ '\x7d') ≠ [] ∧
           (rest.tail.dropWhile (fun x => x ≠ '\x7d')).take 2 = gs "\x7d\x7d")) :
    stripTemplateVariables (c :: rest) = c :: stripTemplateVariables rest := by
  show stripTVGo (rest.length + 1) (c :: rest) = _
  rw [stripTVGo]
  rcases h with h | h
  · rw [if_neg h]
    rfl
  · by_cases hbr : c = '\x7b' ∧ rest.head? = some '\x7b'
    · rw [if_pos hbr, if_neg h]
      rfl
    · rw [if_neg hbr]
      rfl

theorem strip_cons_match (c : Char) (rest : GoStr)
    (hbr : c = '\x7b' ∧ rest.head? = some '\x7b')
    (hm : rest.tail.takeWhile (fun x => x ≠ '\x7d') ≠ [] ∧
          (rest.tail.dropWhile (fun x => x ≠ '\x7d')).take 2 = gs "\x7d\x7d") :
    stripTemplateVariables (c :: rest) =
      '\x22' :: '\x22' :: stripTemplateVariables ((rest.tail.dropWhile (fun x => x ≠ '\x7d')).drop 2) := by
  show stripTVGo (rest.length + 1) (c :: rest) = _
  rw [stripTVGo, if_pos hbr, if_pos hm]
  have htail : rest.tail.length ≤ rest.length := by cases rest <;> simp
  have hdw := ((rest.tail.dropWhile_suffix (fun x => x ≠ '\x7d')).sublist).length_le
  rw [stripTVGo_fuel rest.length _ _ (by simp only [List.length_drop]; omega) (le_refl _)]
  rfl

theorem strip_no_placeholder (data : GoStr) (h : containsSub data (gs "\x7b\x7b") = false) :
    stripTemplateVariables data = data := by
  induction data with
  | nil => rfl
  | cons c rest ih =>
    rw [containsSub, Bool.or_eq_false_iff] at h
    obtain ⟨hp, hc⟩ := h
    have hbr : ¬(c = '\x7b' ∧ rest.head? = some '\x7b') := by
      intro ⟨hc1, hc2⟩
      subst hc1
      cases rest with
      | nil => simp at hc2
      | cons r rs =>
        simp at hc2
        subst hc2
        simp [gs, List.isPrefixOf] at hp
    rw [strip_cons_advance c rest (Or.inl hbr), ih hc]

/-- C9: the claim fails on the code: on the catalog bytes `a{{x}}b` the code
produces `a""b` (the placeholder is replaced by the two-character text `""`),
not the claim's `ab`. -/
theorem spec2_C9_counterexample :
    ¬ (stripTemplateVariables (gs "a\x7b\x7bx\x7d\x7db") = claimStripEmpty (gs "a\x7b\x7bx\x7d\x7db")) := by
  decide

/-- C9 (amended): before the catalog bytes are parsed, every templating
placeholder matching `\{\{[^}]+\}\}` is replaced by the two-character text
`""` (an empty YAML string literal, not the empty string), and all other
bytes are left unchanged: bytes containing no `{{` pass through identically,
and a leftmost placeholder occurrence is rewritten to `""` with the bytes
before it copied verbatim. -/
theorem spec2_C9_amended (data pre mid post : GoStr)
    (hnone : containsSub data (gs "\x7b\x7b") = false)
    (hpre : ∀ c ∈ pre, c ≠ '\x7b') (hmid0 : mid ≠ []) (hmid : ∀ c ∈ mid, c ≠ '\x7d') :
    stripTemplateVariables data = data ∧
    stripTemplateVariables (pre ++ gs "\x7b\x7b" ++ mid ++ gs "\x7d\x7d" ++ post) =
      pre ++ gs "\x22\x22" ++ stripTemplateVariables post := by
  refine ⟨strip_no_placeholder data hnone, ?_⟩
  induction pre with
  | nil =>
    have hshape : ([] : GoStr) ++ gs "\x7b\x7b" ++ mid ++ gs "\x7d\x7d" ++ post =
        '\x7b' :: '\x7b' :: (mid ++ '\x7d' :: '\x7d' :: post) := by
      simp [gs]
    rw [hshape]
    have htail : ('\x7b' :: (mid ++ '\x7d' :: '\x7d' :: post) : GoStr).tail = mid ++ '\x7d' :: '\x7d' :: post := rfl
    have htake : (mid ++ '\x7d' :: '\x7d' :: post).takeWhile (fun x => x ≠ '\x7d') = mid := by
      rw [List.takeWhile_append_of_pos (by intro a ha; simpa using hmid a ha)]
      simp [List.takeWhile_cons]
    have hdrop : (mid ++ '\x7d' :: '\x7d' :: post).dropWhile (fun x => x ≠ '\x7d') = '\x7d' :: '\x7d' :: post := by
      rw [List.dropWhile_append_of_pos (by intro a ha; simpa using hmid a ha)]
      simp [List.dropWhile_cons]
    rw [strip_cons_match '\x7b' ('\x7b' :: (mid ++ '\x7d' :: '\x7d' :: post))
      (by exact ⟨rfl, rfl⟩)
      (by rw [htail, htake, hdrop]; exact ⟨hmid0, rfl⟩)]
    rw [htail, hdrop]
    rfl
  | cons c pre ih =>
    have hc : c ≠ '\x7b' := hpre c (by simp)
    have hshape : (c :: pre) ++ gs "\x7b\x7b" ++ mid ++ gs "\x7d\x7d" ++ post =
        c :: (pre ++ gs "\x7b\x7b" ++ mid ++ gs "\x7d\x7d" ++ post) := by simp
    rw [hshape, strip_cons_advance c _ (Or.inl (fun hcontra => hc hcontra.1)),
      ih (fun x hx => hpre x (by simp [hx]))]
    rfl

/-- Witness for C9 (amended) at concrete bytes. -/
theorem spec2_C9_witness :
    (containsSub (gs "plain: text") (gs "\x7b\x7b") = false ∧
     (∀ c ∈ gs "url: ", c ≠ '\x7b') ∧ gs "HOMEPAGE_VAR_URL" ≠ [] ∧
     (∀ c ∈ gs "HOMEPAGE_VAR_URL", c ≠ '\x7d')) ∧
    (stripTemplateVariables (gs "plain: text") = gs "plain: text" ∧
     stripTemplateVariables (gs "url: " ++ gs "\x7b\x7b" ++ gs "HOMEPAGE_VAR_URL" ++ gs "\x7d\x7d" ++ gs " x") =
       gs "url: " ++ gs "\x22\x22" ++ stripTemplateVariables (gs " x")) :=
  ⟨⟨by decide, by decide, by decide, by decide⟩,
    spec2_C9_amended (gs "plain: text") (gs "url: ") (gs "HOMEPAGE_VAR_URL") (gs " x")
      (by decide) (by decide) (by decide) (by decide)⟩

/-! ## C2 and C3: counter behaviour -/

/-- C2: the code violates the claim.  `c2Index` holds `jellyfin.example.com`
with counter 5 from the homepage source, and the catalog still lists
`https://jellyfin.example.com`; after one `Reload` pass the counter associated
with that id is 0, not ≥ 5, because `MapServices` rebuilds every surviving
service with `Counter: 0` and `UpdateServices` replaces the index wholesale. -/
theorem spec2_C2 :
    (lookupAssoc c2Index (gs "jellyfin.example.com")).map Service.counter = some 5 ∧
    (lookupAssoc (reload 10 c2Catalog c2Index) (gs "jellyfin.example.com")).map Service.counter =
      some 0 := by
  decide

/-- C3: the code violates the claim.  With the TLS-valid cached resolution
`q ↦ old.example.org` and an allow-list that no longer covers that hostname,
`Resolve("q")` responds with the home redirect, yet it has already incremented
`old.example.org`'s usage counter (3 → 4 in the index, and the same
`IncrementUsage` call against the store), because `handleCachedService`
increments before the allow-list check. -/
theorem spec2_C3 :
    c3Result.location = c3Deps.homepageURL ∧
    c3Result.incremented = [gs "old.example.org"] ∧
    (lookupAssoc c3Result.state.services (gs "old.example.org")).map Service.counter = some 4 := by
  decide

/-! ## C10: the fuzzy similarity -/

theorem scoreFragment_fuzzy (pb : Nat → ℚ) (qf hf : GoStr) (p : Nat)
    (hq : normalizeFragment qf ≠ []) (hh : normalizeFragment hf ≠ [])
    (hne : normalizeFragment qf ≠ normalizeFragment hf)
    (hpre : startsWith (normalizeFragment hf) (normalizeFragment qf) = false)
    (hsub : containsSub (normalizeFragment hf) (normalizeFragment qf) = false) :
    scoreFragment pb qf hf p =
      if 1 / 2 < calculateSimilarity (normalizeFragment qf) (normalizeFragment hf) then
        ScoreFuzzyMatch * calculateSimilarity (normalizeFragment qf) (normalizeFragment hf)
      else 0 := by
  rw [scoreFragment, if_neg (by simp [hq, hh]), if_neg hne, if_neg (by simp [hpre]),
    if_neg (by simp [hsub])]

theorem calculateSimilarity_eq_multiset (q h : GoStr) (hq : q ≠ []) (hh : h ≠ []) :
    calculateSimilarity q h = amendedMultisetSimilarity q h := by
  rw [calculateSimilarity, if_neg (by simp [hq, hh]), amendedMultisetSimilarity]

/-- C10: the claim fails on the code.  At the normalized fragments `aax` and
`ab` (no exact, prefix or substring relation), the code scores
`25 · (2/3) = 50/3` because `calculateSimilarity` counts the query's
characters with multiplicity (both copies of `a` count), while the claim's
set-based ratio is `1/3 ≤ 1/2`, predicting score 0. -/
theorem spec2_C10_counterexample :
    (normalizeFragment (gs "aax") = gs "aax" ∧ normalizeFragment (gs "ab") = gs "ab" ∧
     gs "aax" ≠ gs "ab" ∧ startsWith (gs "ab") (gs "aax") = false ∧
     containsSub (gs "ab") (gs "aax") = false) ∧
    scoreFragment (fun _ => 0) (gs "aax") (gs "ab") 0 ≠ claimFuzzyScore (gs "aax") (gs "ab") := by
  refine ⟨by decide, ?_⟩
  have hsim : calculateSimilarity (gs "aax") (gs "ab") = 2 / 3 := by
    rw [calculateSimilarity, if_neg (by decide),
      show (gs "aax").countP (fun c => containsRune (gs "ab") c) = 2 from by decide,
      show (gs "aax").length = 3 from by decide]
    norm_num
  have h1 : scoreFragment (fun _ => 0) (gs "aax") (gs "ab") 0 = 50 / 3 := by
    rw [scoreFragment_fuzzy (fun _ => 0) (gs "aax") (gs "ab") 0 (by decide) (by decide)
      (by decide) (by decide) (by decide),
      show normalizeFragment (gs "aax") = gs "aax" from by decide,
      show normalizeFragment (gs "ab") = gs "ab" from by decide, hsim,
      if_pos (by norm_num), ScoreFuzzyMatch]
    norm_num
  have h2 : claimFuzzyScore (gs "aax") (gs "ab") = 0 := by
    have hset : claimSetSimilarity (gs "aax") (gs "ab") = 1 / 3 := by
      rw [claimSetSimilarity,
        show (gs "aax").dedup.countP (fun c => containsRune (gs "ab") c) = 1 from by decide,
        show (gs "aax").length = 3 from by decide]
      norm_num
    rw [claimFuzzyScore, hset, if_neg (by norm_num)]
  rw [h1, h2]
  norm_num

/-- C10 (amended): in the fuzzy branch (no exact, prefix or substring
relation between the nonempty normalized fragments), `scoreFragment` is
`25 · r` when `r > 1/2` and 0 otherwise, where `r` counts the query
fragment's character POSITIONS (multiplicity included) whose character occurs
in the host fragment, divided by the fragment's length; in particular a query
all of whose characters occur in the host fragment (a reversal or anagram,
say) receives the full fuzzy score 25 regardless of order. -/
theorem spec2_C10_amended (pb : Nat → ℚ) (qf hf : GoStr) (p : Nat)
    (hq : normalizeFragment qf ≠ []) (hh : normalizeFragment hf ≠ [])
    (hne : normalizeFragment qf ≠ normalizeFragment hf)
    (hpre : startsWith (normalizeFragment hf) (normalizeFragment qf) = false)
    (hsub : containsSub (normalizeFragment hf) (normalizeFragment qf) = false) :
    scoreFragment pb qf hf p =
      (if 1 / 2 < amendedMultisetSimilarity (normalizeFragment qf) (normalizeFragment hf) then
        ScoreFuzzyMatch * amendedMultisetSimilarity (normalizeFragment qf) (normalizeFragment hf)
      else 0) ∧
    ((∀ c ∈ normalizeFragment qf, containsRune (normalizeFragment hf) c = true) →
      scoreFragment pb qf hf p = ScoreFuzzyMatch) := by
  have hbranch := scoreFragment_fuzzy pb qf hf p hq hh hne hpre hsub
  have heq := calculateSimilarity_eq_multiset (normalizeFragment qf) (normalizeFragment hf) hq hh
  refine ⟨by rw [hbranch, heq], ?_⟩
  intro hall
  have hcount : (normalizeFragment qf).countP (fun c => containsRune (normalizeFragment hf) c) =
      (normalizeFragment qf).length := by
    rw [List.countP_eq_length]
    exact hall
  have hlen : ((normalizeFragment qf).length : ℚ) ≠ 0 := by
    have : (normalizeFragment qf).length ≠ 0 := by
      simpa [List.length_eq_zero] using hq
    exact_mod_cast this
  have hone : amendedMultisetSimilarity (normalizeFragment qf) (normalizeFragment hf) = 1 := by
    rw [amendedMultisetSimilarity, hcount, div_self hlen]
  rw [hbranch, heq, hone, if_pos (by norm_num)]
  rw [mul_one]

/-- Witness for C10 (amended) at the normalized fragments `trfk` and
`traefik`. -/
theorem spec2_C10_witness :
    (normalizeFragment (gs "trfk") ≠ [] ∧ normalizeFragment (gs "traefik") ≠ [] ∧
     normalizeFragment (gs "trfk") ≠ normalizeFragment (gs "traefik") ∧
     startsWith (normalizeFragment (gs "traefik")) (normalizeFragment (gs "trfk")) = false ∧
     containsSub (normalizeFragment (gs "traefik")) (normalizeFragment (gs "trfk")) = false ∧
     (∀ c ∈ normalizeFragment (gs "trfk"), containsRune (normalizeFragment (gs "traefik")) c = true)) ∧
    scoreFragment (fun _ => 3) (gs "trfk") (gs "traefik") 0 = ScoreFuzzyMatch :=
  ⟨⟨by decide, by decide, by decide, by decide, by decide, by decide⟩,
    (spec2_C10_amended (fun _ => 3) (gs "trfk") (gs "traefik") 0 (by decide) (by decide)
      (by decide) (by decide) (by decide)).2 (by decide)⟩

/-! ## C6: the strict subdomain requirement -/

theorem foldl_best_zero (g : ℕ × GoStr → ℚ) (l : List (ℕ × GoStr)) (h : ∀ x ∈ l, g x = 0) :
    l.foldl (fun best p => if best < g p then g p else best) 0 = 0 := by
  induction l with
  | nil => rfl
  | cons x rest ih =>
    rw [List.foldl_cons, h x (by simp), if_neg (lt_irrefl 0)]
    exact ih (fun y hy => h y (by simp [hy]))

theorem bestSubdomainScore_zero (pb : Nat → ℚ) (qFrag : GoStr) (subdomains : List GoStr)
    (h : ∀ pr ∈ subdomains.enum, scoreFragment pb qFrag pr.2 pr.1 = 0) :
    bestSubdomainScore pb qFrag subdomains = 0 := by
  rw [bestSubdomainScore]
  exact foldl_best_zero (fun p => scoreFragment pb qFrag p.2 p.1) subdomains.enum h

theorem sumSubdomainScores_zero (pb : Nat → ℚ) (subdomainFragments subdomains : List GoStr)
    (h : ∀ f ∈ subdomainFragments, bestSubdomainScore pb f subdomains = 0) :
    sumSubdomainScores pb subdomainFragments subdomains = 0 := by
  rw [sumSubdomainScores]
  induction subdomainFragments with
  | nil => rfl
  | cons f rest ih =>
    rw [List.foldl_cons, h f (by simp), add_zero]
    exact ih (fun x hx => h x (by simp [hx]))

/-- C6: with `has_dot = true`, `Score` is 0 whenever the hostname has fewer
than 2 labels, or the query has no subdomain fragments, or every subdomain
fragment scores 0 against every non-first hostname label (at that label's
position among the non-first labels). -/
theorem spec2_C6 (pb : Nat → ℚ) (query : Query) (service : Service)
    (hdot : query.hasDot = true)
    (hcond : (hostnameFragments (toLower service.hostname)).length < 2 ∨
             query.subdomainFragments = [] ∨
             (∀ f ∈ query.subdomainFragments,
               ∀ pr ∈ ((hostnameFragments (toLower service.hostname)).drop 1).enum,
                 scoreFragment pb f pr.2 pr.1 = 0)) :
    score pb query service = 0 := by
  rw [score, if_pos (by rw [hdot]), scoreWithSubdomains]
  by_cases h1 : query.fragments = [] ∨ hostnameFragments (toLower service.hostname) = []
  · rw [if_pos h1]
  · rw [if_neg h1]
    by_cases h2 : query.subdomainFragments = []
    · rw [if_pos h2]
    · rw [if_neg h2]
      by_cases h3 : (hostnameFragments (toLower service.hostname)).length < 2
      · rw [if_pos h3]
      · rw [if_neg h3]
        rcases hcond with hc | hc | hc
        · exact absurd hc h3
        · exact absurd hc h2
        · rw [if_pos (sumSubdomainScores_zero pb query.subdomainFragments _
            (fun f hf => bestSubdomainScore_zero pb f _ (hc f hf)))]

theorem scoreFragment_b_c : scoreFragment (fun _ => 1) (gs "b") (gs "c") 0 = 0 := by
  have hsim : calculateSimilarity (normalizeFragment (gs "b")) (normalizeFragment (gs "c")) = 0 := by
    rw [calculateSimilarity, if_neg (by decide),
      show (normalizeFragment (gs "b")).countP
        (fun c => containsRune (normalizeFragment (gs "c")) c) = 0 from by decide]
    norm_num
  rw [scoreFragment, if_neg (by decide), if_neg (by decide), if_neg (by decide),
    if_neg (by decide), hsim, if_neg (by norm_num)]

theorem c6_side : ∀ f ∈ (parseQuery (gs "a.b")).subdomainFragments,
    ∀ pr ∈ ((hostnameFragments (toLower (gs "a.c"))).drop 1).enum,
      scoreFragment (fun _ => 1) f pr.2 pr.1 = 0 := by
  intro f hf pr hpr
  have hsf : (parseQuery (gs "a.b")).subdomainFragments = [gs "b"] := by decide
  have hen : ((hostnameFragments (toLower (gs "a.c"))).drop 1).enum = [(0, gs "c")] := by decide
  rw [hsf] at hf
  rw [hen] at hpr
  simp only [List.mem_singleton] at hf hpr
  subst hf
  subst hpr
  exact scoreFragment_b_c

/-- Witness for C6 at the query `a.b` against the host `a.c`: the single
subdomain fragment `b` scores 0 against the only non-first label `c`. -/
theorem spec2_C6_witness :
    ((parseQuery (gs "a.b")).hasDot = true ∧
     (∀ f ∈ (parseQuery (gs "a.b")).subdomainFragments,
       ∀ pr ∈ ((hostnameFragments (toLower (gs "a.c"))).drop 1).enum,
         scoreFragment (fun _ => 1) f pr.2 pr.1 = 0)) ∧
    score (fun _ => 1) (parseQuery (gs "a.b"))
      ⟨gs "a.c", gs "a.c", gs "a", [gs "homepage"], 0, 0, 0, 0, 0, false⟩ = 0 :=
  ⟨⟨by decide, c6_side⟩,
    spec2_C6 (fun _ => 1) (parseQuery (gs "a.b"))
      ⟨gs "a.c", gs "a.c", gs "a", [gs "homepage"], 0, 0, 0, 0, 0, false⟩ (by decide)
      (Or.inr (Or.inr c6_side))⟩

/-! ## C7: strict ordering of the match levels -/

theorem indexSub_add_length_le (s sub : GoStr) (h : containsSub s sub = true) :
    indexSub s sub + sub.length ≤ s.length := by
  induction s with
  | nil =>
    rw [containsSub, List.isEmpty_iff] at h
    subst h
    simp [indexSub]
  | cons c rest ih =>
    rw [containsSub, Bool.or_eq_true] at h
    rw [indexSub]
    by_cases hp : sub.isPrefixOf (c :: rest) = true
    · rw [if_pos hp]
      have := (List.isPrefixOf_iff_prefix.mp hp).length_le
      simpa using this
    · rw [if_neg hp]
      rcases h with h | h
      · exact absurd h hp
      · have := ih h
        simp only [List.length_cons]
        omega

theorem indexSub_pos (s sub : GoStr) (h : containsSub s sub = true)
    (hp : sub.isPrefixOf s = false) : 1 ≤ indexSub s sub := by
  cases s with
  | nil =>
    rw [containsSub, List.isEmpty_iff] at h
    subst h
    simp [List.isPrefixOf] at hp
  | cons c rest =>
    rw [indexSub, if_neg (by rw [hp]; exact Bool.false_ne_true)]
    omega

theorem startsWith_of_eq (l : GoStr) : startsWith l l = true := by
  rw [startsWith, List.isPrefixOf_iff_prefix]

theorem ne_of_not_startsWith (q h : GoStr) (hs : startsWith h q = false) : q ≠ h := by
  intro heq
  subst heq
  rw [startsWith_of_eq] at hs
  exact Bool.noConfusion hs

theorem nonempty_of_startsWith (q h : GoStr) (hq : q ≠ []) (hs : startsWith h q = true) :
    h ≠ [] := by
  intro hh
  subst hh
  cases q with
  | nil => exact hq rfl
  | cons a as => simp [startsWith, List.isPrefixOf] at hs

theorem nonempty_of_containsSub (q h : GoStr) (hq : q ≠ []) (hc : containsSub h q = true) :
    h ≠ [] := by
  intro hh
  subst hh
  rw [containsSub, List.isEmpty_iff] at hc
  exact hq hc

theorem scoreFragment_exact (pb : Nat → ℚ) (qf hf : GoStr) (p : Nat)
    (hq : normalizeFragment qf ≠ []) (heq : normalizeFragment qf = normalizeFragment hf) :
    scoreFragment pb qf hf p = ScoreExactMatch + pb p := by
  rw [scoreFragment, if_neg (by simp [hq, heq ▸ hq]), if_pos heq]

theorem scoreFragment_prefixCase (pb : Nat → ℚ) (qf hf : GoStr) (p : Nat)
    (hq : normalizeFragment qf ≠ [])
    (hne : normalizeFragment qf ≠ normalizeFragment hf)
    (hs : startsWith (normalizeFragment hf) (normalizeFragment qf) = true) :
    scoreFragment pb qf hf p = ScorePrefixMatch + pb p := by
  have hh := nonempty_of_startsWith _ _ hq hs
  rw [scoreFragment, if_neg (by simp [hq, hh]), if_neg hne, if_pos hs]

theorem scoreFragment_substring_bounds (pb : Nat → ℚ) (qf hf : GoStr) (p : Nat)
    (hq : normalizeFragment qf ≠ [])
    (hs : startsWith (normalizeFragment hf) (normalizeFragment qf) = false)
    (hc : containsSub (normalizeFragment hf) (normalizeFragment qf) = true) :
    ScoreSubstringMatch < scoreFragment pb qf hf p ∧
    scoreFragment pb qf hf p < ScoreSubstringMatch + ScorePositionBonus := by
  have hh := nonempty_of_containsSub _ _ hq hc
  have hne := ne_of_not_startsWith _ _ hs
  rw [scoreFragment, if_neg (by simp [hq, hh]), if_neg hne,
    if_neg (by rw [hs]; exact Bool.false_ne_true), if_pos hc]
  have hidx1 : 1 ≤ indexSub (normalizeFragment hf) (normalizeFragment qf) :=
    indexSub_pos _ _ hc hs
  have hidx2 := indexSub_add_length_le (normalizeFragment hf) (normalizeFragment qf) hc
  have hqlen : 1 ≤ (normalizeFragment qf).length := by
    cases hqf : normalizeFragment qf with
    | nil => exact absurd hqf hq
    | cons a as => simp
  have hL0 : (0 : ℚ) < ((normalizeFragment hf).length : ℚ) := by
    have : 0 < (normalizeFragment hf).length := by omega
    exact_mod_cast this
  have hIL : ((indexSub (normalizeFragment hf) (normalizeFragment qf) : ℚ)) <
      ((normalizeFragment hf).length : ℚ) := by
    have : indexSub (normalizeFragment hf) (normalizeFragment qf) <
        (normalizeFragment hf).length := by omega
    exact_mod_cast this
  have hI0 : (0 : ℚ) < ((indexSub (normalizeFragment hf) (normalizeFragment qf) : ℚ)) := by
    have : 0 < indexSub (normalizeFragment hf) (normalizeFragment qf) := by omega
    exact_mod_cast this
  have hdivlt : ((indexSub (normalizeFragment hf) (normalizeFragment qf) : ℚ)) /
      ((normalizeFragment hf).length : ℚ) < 1 := (div_lt_one hL0).mpr hIL
  have hdivpos : 0 < ((indexSub (normalizeFragment hf) (normalizeFragment qf) : ℚ)) /
      ((normalizeFragment hf).length : ℚ) := div_pos hI0 hL0
  rw [ScoreSubstringMatch, ScorePositionBonus]
  constructor
  · nlinarith
  · nlinarith

theorem scoreFragment_fuzzy_le (pb : Nat → ℚ) (qf hf : GoStr) (p : Nat)
    (hq : normalizeFragment qf ≠ []) (hh : normalizeFragment hf ≠ [])
    (hne : normalizeFragment qf ≠ normalizeFragment hf)
    (hs : startsWith (normalizeFragment hf) (normalizeFragment qf) = false)
    (hc : containsSub (normalizeFragment hf) (normalizeFragment qf) = false) :
    scoreFragment pb qf hf p ≤ ScoreFuzzyMatch := by
  rw [scoreFragment_fuzzy pb qf hf p hq hh hne hs hc]
  have hsim : calculateSimilarity (normalizeFragment qf) (normalizeFragment hf) ≤ 1 := by
    rw [calculateSimilarity, if_neg (by simp [hq, hh])]
    have hcount := List.countP_le_length
      (p := fun c => containsRune (normalizeFragment hf) c) (l := normalizeFragment qf)
    have hlen : (0 : ℚ) < ((normalizeFragment qf).length : ℚ) := by
      have : 0 < (normalizeFragment qf).length := by
        cases hqf : normalizeFragment qf with
        | nil => exact absurd hqf hq
        | cons a as => simp
      exact_mod_cast this
    rw [div_le_one hlen]
    exact_mod_cast hcount
  by_cases hgt : 1 / 2 < calculateSimilarity (normalizeFragment qf) (normalizeFragment hf)
  · rw [if_pos hgt, ScoreFuzzyMatch]
    nlinarith
  · rw [if_neg hgt, ScoreFuzzyMatch]
    norm_num

/-- C7: at equal position and for nonempty normalized fragments, an exact
match scores strictly more than a prefix match, a prefix match strictly more
than a substring match, and a substring match strictly more than a fuzzy
match, whose score never exceeds 25.  (The hypothesis `0 ≤ pb p` holds of the
real position bonus `10·exp(-0.3·p)`.) -/
theorem spec2_C7 (pb : Nat → ℚ) (p : Nat) (q1 h1 q2 h2 q3 h3 q4 h4 : GoStr)
    (hpb : 0 ≤ pb p)
    (he1 : normalizeFragment q1 ≠ []) (he2 : normalizeFragment q1 = normalizeFragment h1)
    (hp1 : normalizeFragment q2 ≠ []) (hp2 : normalizeFragment q2 ≠ normalizeFragment h2)
    (hp3 : startsWith (normalizeFragment h2) (normalizeFragment q2) = true)
    (hs1 : normalizeFragment q3 ≠ [])
    (hs2 : startsWith (normalizeFragment h3) (normalizeFragment q3) = false)
    (hs3 : containsSub (normalizeFragment h3) (normalizeFragment q3) = true)
    (hf1 : normalizeFragment q4 ≠ []) (hf2 : normalizeFragment h4 ≠ [])
    (hf3 : normalizeFragment q4 ≠ normalizeFragment h4)
    (hf4 : startsWith (normalizeFragment h4) (normalizeFragment q4) = false)
    (hf5 : containsSub (normalizeFragment h4) (normalizeFragment q4) = false) :
    scoreFragment pb q4 h4 p ≤ 25 ∧
    scoreFragment pb q4 h4 p < scoreFragment pb q3 h3 p ∧
    scoreFragment pb q3 h3 p < scoreFragment pb q2 h2 p ∧
    scoreFragment pb q2 h2 p < scoreFragment pb q1 h1 p := by
  have hex := scoreFragment_exact pb q1 h1 p he1 he2
  have hpr := scoreFragment_prefixCase pb q2 h2 p hp1 hp2 hp3
  have hsb := scoreFragment_substring_bounds pb q3 h3 p hs1 hs2 hs3
  have hfz := scoreFragment_fuzzy_le pb q4 h4 p hf1 hf2 hf3 hf4 hf5
  rw [ScoreExactMatch] at hex
  rw [ScorePrefixMatch] at hpr
  rw [ScoreSubstringMatch, ScorePositionBonus] at hsb
  rw [ScoreFuzzyMatch] at hfz
  refine ⟨hfz, ?_, ?_, ?_⟩
  · rw [hex] at *
    nlinarith [hsb.1, hsb.2]
  · rw [hpr]
    nlinarith [hsb.1, hsb.2]
  · rw [hex, hpr]
    norm_num

/-- Witness for C7: exact `abc/abc`, prefix `ab/abc`, substring `b/abc`,
fuzzy `ca/abc`, all at position 0 with position bonus 4. -/
theorem spec2_C7_witness :
    (0 ≤ (4 : ℚ)) ∧
    (scoreFragment (fun _ => 4) (gs "ca") (gs "abc") 0 ≤ 25 ∧
     scoreFragment (fun _ => 4) (gs "ca") (gs "abc") 0 <
       scoreFragment (fun _ => 4) (gs "b") (gs "abc") 0 ∧
     scoreFragment (fun _ => 4) (gs "b") (gs "abc") 0 <
       scoreFragment (fun _ => 4) (gs "ab") (gs "abc") 0 ∧
     scoreFragment (fun _ => 4) (gs "ab") (gs "abc") 0 <
       scoreFragment (fun _ => 4) (gs "abc") (gs "abc") 0) :=
  ⟨by norm_num,
    spec2_C7 (fun _ => 4) 0 (gs "abc") (gs "abc") (gs "ab") (gs "abc") (gs "b") (gs "abc")
      (gs "ca") (gs "abc") (by norm_num) (by decide) (by decide) (by decide) (by decide)
      (by decide) (by decide) (by decide) (by decide) (by decide) (by decide) (by decide)
      (by decide) (by decide)⟩

/-! ## C8: bubble sort correctness and `RankCandidates` -/

theorem bubbleStep_perm (key : α → ℚ) (a : α) (l : List α) :
    (bubbleStep key a l).Perm (a :: l) := by
  induction l generalizing a with
  | nil => exact List.Perm.refl _
  | cons b rest ih =>
    rw [bubbleStep]
    by_cases h : key a < key b
    · rw [if_pos h]
      exact ((ih a).cons b).trans (List.Perm.swap a b rest)
    · rw [if_neg h]
      exact (ih b).cons a

theorem bubblePass_perm (key : α → ℚ) (l : List α) : (bubblePass key l).Perm l := by
  cases l with
  | nil => exact List.Perm.refl _
  | cons a rest => exact bubbleStep_perm key a rest

theorem bubblePass_iterate_perm (key : α → ℚ) (n : Nat) (l : List α) :
    ((bubblePass key)^[n] l).Perm l := by
  induction n generalizing l with
  | zero => exact List.Perm.refl _
  | succ n ih =>
    rw [Function.iterate_succ_apply]
    exact (ih (bubblePass key l)).trans (bubblePass_perm key l)

theorem bubbleStep_append_last (key : α → ℚ) (a m : α) (l : List α)
    (h : ∀ x ∈ a :: l, key m ≤ key x) :
    bubbleStep key a (l ++ [m]) = bubbleStep key a l ++ [m] := by
  induction l generalizing a with
  | nil =>
    rw [List.nil_append]
    simp only [bubbleStep]
    rw [if_neg (not_lt.mpr (h a (by simp)))]
    rfl
  | cons b rest ih =>
    rw [List.cons_append, bubbleStep, bubbleStep]
    by_cases hab : key a < key b
    · rw [if_pos hab, if_pos hab,
        ih a (fun x hx => h x (by simp only [List.mem_cons] at hx ⊢; tauto))]
      rfl
    · rw [if_neg hab, if_neg hab,
        ih b (fun x hx => h x (by simp only [List.mem_cons] at hx ⊢; tauto))]
      rfl

theorem bubbleStep_last_min (key : α → ℚ) (a : α) (l : List α) :
    ∃ t m, bubbleStep key a l = t ++ [m] ∧ (∀ x ∈ a :: l, key m ≤ key x) ∧
      t.length = l.length := by
  induction l generalizing a with
  | nil => exact ⟨[], a, rfl, by simp, rfl⟩
  | cons b rest ih =>
    rw [bubbleStep]
    by_cases hab : key a < key b
    · obtain ⟨t, m, heq, hmin, hlen⟩ := ih a
      refine ⟨b :: t, m, by rw [if_pos hab, heq]; rfl, ?_, by simp [hlen]⟩
      intro x hx
      rcases List.mem_cons.mp hx with rfl | hx2
      · exact hmin x (by simp)
      · rcases List.mem_cons.mp hx2 with rfl | hx3
        · exact le_of_lt (lt_of_le_of_lt (hmin a (by simp)) hab)
        · exact hmin x (by simp [hx3])
    · obtain ⟨t, m, heq, hmin, hlen⟩ := ih b
      refine ⟨a :: t, m, by rw [if_neg hab, heq]; rfl, ?_, by simp [hlen]⟩
      intro x hx
      rcases List.mem_cons.mp hx with rfl | hx2
      · exact le_trans (hmin b (by simp)) (not_lt.mp hab)
      · exact hmin x hx2

theorem bubblePass_append_last (key : α → ℚ) (m : α) (l : List α)
    (h : ∀ x ∈ l, key m ≤ key x) :
    bubblePass key (l ++ [m]) = bubblePass key l ++ [m] := by
  cases l with
  | nil => rfl
  | cons a rest => exact bubbleStep_append_last key a m rest h

theorem bubblePass_iterate_append_last (key : α → ℚ) (n : Nat) (m : α) (l : List α)
    (h : ∀ x ∈ l, key m ≤ key x) :
    (bubblePass key)^[n] (l ++ [m]) = ((bubblePass key)^[n] l) ++ [m] := by
  induction n generalizing l with
  | zero => rfl
  | succ n ih =>
    rw [Function.iterate_succ_apply, Function.iterate_succ_apply,
      bubblePass_append_last key m l h]
    exact ih (bubblePass key l)
      (fun x hx => h x ((bubblePass_perm key l).mem_iff.mp hx))

theorem bubblePass_iterate_sorted (key : α → ℚ) :
    ∀ (n : Nat) (l : List α), l.length ≤ n + 1 →
      ((bubblePass key)^[n] l).Pairwise (fun x y => key y ≤ key x) := by
  intro n
  induction n with
  | zero =>
    intro l hl
    rw [Function.iterate_zero_apply]
    cases l with
    | nil => exact List.Pairwise.nil
    | cons a rest =>
      cases rest with
      | nil => simp
      | cons b rest2 => simp at hl
  | succ n ih =>
    intro l hl
    cases l with
    | nil =>
      rw [Function.iterate_fixed (by rfl : bubblePass key [] = [])]
      exact List.Pairwise.nil
    | cons a rest =>
      rw [Function.iterate_succ_apply]
      obtain ⟨t, m, heq, hmin, hlen⟩ := bubbleStep_last_min key a rest
      have hstep : bubblePass key (a :: rest) = t ++ [m] := heq
      rw [hstep]
      have hmt : ∀ x ∈ t, key m ≤ key x := by
        intro x hx
        have hx2 : x ∈ t ++ [m] := List.mem_append_left _ hx
        rw [← heq] at hx2
        exact hmin x ((bubbleStep_perm key a rest).mem_iff.mp hx2)
      rw [bubblePass_iterate_append_last key n m t hmt, List.pairwise_append]
      refine ⟨ih t (by simp at hl; omega), by simp, ?_⟩
      intro x hx y hy
      simp only [List.mem_singleton] at hy
      subst hy
      exact hmt x ((bubblePass_iterate_perm key n t).mem_iff.mp hx)

theorem bubbleStep_filter (key : α → ℚ) (P : α → Bool)
    (hP : ∀ x y, P x = true → P y = true → ¬ key x < key y) (a : α) (l : List α) :
    (bubbleStep key a l).filter P = (a :: l).filter P := by
  induction l generalizing a with
  | nil => rfl
  | cons b rest ih =>
    rw [bubbleStep]
    by_cases hab : key a < key b
    · rw [if_pos hab]
      by_cases hPa : P a = true
      · have hPb : P b = false := by
          cases hPb : P b
          · rfl
          · exact absurd hab (hP a b hPa hPb)
        simp [List.filter_cons, hPa, hPb, ih a]
      · simp only [Bool.not_eq_true] at hPa
        simp [List.filter_cons, hPa, ih a]
    · rw [if_neg hab]
      simp [List.filter_cons, ih b]

theorem bubblePass_filter (key : α → ℚ) (P : α → Bool)
    (hP : ∀ x y, P x = true → P y = true → ¬ key x < key y) (l : List α) :
    (bubblePass key l).filter P = l.filter P := by
  cases l with
  | nil => rfl
  | cons a rest => exact bubbleStep_filter key P hP a rest

theorem bubblePass_iterate_filter (key : α → ℚ) (P : α → Bool)
    (hP : ∀ x y, P x = true → P y = true → ¬ key x < key y) (n : Nat) (l : List α) :
    (((bubblePass key)^[n] l).filter P) = l.filter P := by
  induction n generalizing l with
  | zero => rfl
  | succ n ih =>
    rw [Function.iterate_succ_apply, ih (bubblePass key l), bubblePass_filter key P hP]

theorem bubbleStep_sorted_dominated (key : α → ℚ) (a : α) (t : List α)
    (hs : t.Pairwise (fun x y => key y ≤ key x)) (ht : ∀ y ∈ t, key y ≤ key a) :
    bubbleStep key a t = a :: t := by
  induction t generalizing a with
  | nil => rfl
  | cons b t ih =>
    obtain ⟨hb, ht'⟩ := List.pairwise_cons.mp hs
    rw [bubbleStep, if_neg (not_lt.mpr (ht b (by simp))), ih b ht' hb]

theorem bubblePass_sorted_fixed (key : α → ℚ) (t : List α)
    (hs : t.Pairwise (fun x y => key y ≤ key x)) :
    bubblePass key t = t := by
  cases t with
  | nil => rfl
  | cons b t =>
    obtain ⟨hb, ht'⟩ := List.pairwise_cons.mp hs
    exact bubbleStep_sorted_dominated key b t ht' hb

theorem bubbleStep_append_sorted (key : α → ℚ) (a : α) (rest t : List α)
    (hs : t.Pairwise (fun x y => key y ≤ key x))
    (hdom : ∀ x ∈ a :: rest, ∀ y ∈ t, key y ≤ key x) :
    bubbleStep key a (rest ++ t) = bubbleStep key a rest ++ t := by
  induction rest generalizing a with
  | nil =>
    rw [List.nil_append, bubbleStep_sorted_dominated key a t hs (hdom a (by simp))]
    rfl
  | cons b rest ih =>
    rw [List.cons_append, bubbleStep, bubbleStep]
    by_cases hab : key a < key b
    · rw [if_pos hab, if_pos hab,
        ih a (fun x hx => hdom x (by simp only [List.mem_cons] at hx ⊢; tauto))]
      rfl
    · rw [if_neg hab, if_neg hab,
        ih b (fun x hx => hdom x (by simp only [List.mem_cons] at hx ⊢; tauto))]
      rfl

theorem bubblePass_append_sorted (key : α → ℚ) (f t : List α)
    (hs : t.Pairwise (fun x y => key y ≤ key x))
    (hdom : ∀ x ∈ f, ∀ y ∈ t, key y ≤ key x) :
    bubblePass key (f ++ t) = bubblePass key f ++ t := by
  cases f with
  | nil =>
    rw [List.nil_append, bubblePass_sorted_fixed key t hs]
    rfl
  | cons a rest => exact bubbleStep_append_sorted key a rest t hs hdom

theorem bubblePassUpTo_eq_pass (key : α → ℚ) (k : Nat) (f t : List α)
    (hf : f.length ≤ k)
    (hs : t.Pairwise (fun x y => key y ≤ key x))
    (hdom : ∀ x ∈ f, ∀ y ∈ t, key y ≤ key x) :
    bubblePassUpTo key k (f ++ t) = bubblePass key f ++ t := by
  rw [bubblePassUpTo, List.take_append_eq_append_take, List.drop_append_eq_append_drop,
    List.take_of_length_le hf, List.drop_eq_nil_of_le hf, List.nil_append]
  rw [bubblePass_append_sorted key f (t.take (k - f.length))
    (hs.sublist (List.take_sublist _ _))
    (fun x hx y hy => hdom x hx y ((List.take_sublist _ _).mem hy))]
  rw [List.append_assoc, List.take_append_drop]

theorem goPasses_eq_iterate (key : α → ℚ) :
    ∀ (j : Nat) (f t : List α), t.Pairwise (fun x y => key y ≤ key x) →
      (∀ x ∈ f, ∀ y ∈ t, key y ≤ key x) → f.length ≤ j + 1 →
      goPasses key j (f ++ t) = (bubblePass key)^[j] (f ++ t) := by
  intro j
  induction j with
  | zero =>
    intro f t _ _ _
    rfl
  | succ j ih =>
    intro f t hs hdom hlen
    rw [goPasses, bubblePassUpTo_eq_pass key (j + 2) f t (by omega) hs hdom,
      Function.iterate_succ_apply, bubblePass_append_sorted key f t hs hdom]
    cases f with
    | nil =>
      have hfix : bubblePass key t = t := bubblePass_sorted_fixed key t hs
      have := ih [] t hs (by simp) (by simp)
      simpa [hfix] using this
    | cons a rest =>
      obtain ⟨f2, m, heq, hmin, hlen2⟩ := bubbleStep_last_min key a rest
      have hpass : bubblePass key (a :: rest) = f2 ++ [m] := heq
      have hmem2 : ∀ x ∈ f2, x ∈ a :: rest := by
        intro x hx
        exact (bubbleStep_perm key a rest).mem_iff.mp (heq ▸ List.mem_append_left _ hx)
      have hmmem : m ∈ a :: rest :=
        (bubbleStep_perm key a rest).mem_iff.mp (heq ▸ List.mem_append_right _ (by simp))
      have hs' : (m :: t).Pairwise (fun x y => key y ≤ key x) :=
        List.pairwise_cons.mpr ⟨fun y hy => hdom m hmmem y hy, hs⟩
      have hdom' : ∀ x ∈ f2, ∀ y ∈ m :: t, key y ≤ key x := by
        intro x hx y hy
        rcases List.mem_cons.mp hy with rfl | hy2
        · exact hmin x (hmem2 x hx)
        · exact hdom x (hmem2 x hx) y hy2
      have hshape : (f2 ++ [m]) ++ t = f2 ++ (m :: t) := by
        rw [List.append_assoc]
        rfl
      rw [hpass, hshape]
      exact ih f2 (m :: t) hs' hdom' (by simp only [List.length_cons] at hlen; omega)

theorem bubbleSortBy_eq_iterate (key : α → ℚ) (l : List α) :
    bubbleSortBy key l = (bubblePass key)^[l.length - 1] l := by
  rw [bubbleSortBy]
  have h := goPasses_eq_iterate key (l.length - 1) l [] List.Pairwise.nil
    (by simp) (by omega)
  simpa using h

theorem buildCandidates_eq (pb : Nat → ℚ) (lg : Int → ℚ) (query : Query)
    (services : List Service) :
    buildCandidates pb lg query services =
      (services.filter (fun s => !s.disabled && !(score pb query s == 0))).map
        (mkCandidate pb lg query) := by
  induction services with
  | nil => rfl
  | cons s rest ih =>
    rw [buildCandidates]
    by_cases hd : s.disabled
    · rw [if_pos hd]
      simp [List.filter_cons, hd, ih]
    · rw [if_neg hd]
      by_cases hz : score pb query s = 0
      · rw [if_pos hz]
        simp [List.filter_cons, hd, hz, ih]
      · rw [if_neg hz]
        simp [List.filter_cons, hd, hz, ih]

/-- C8: `RankCandidates` returns one candidate for exactly the input services
that are enabled and have nonzero lexical score (a permutation of the
in-order candidate list); the output is sorted by non-increasing total score;
ties keep insertion order (the candidates carrying any fixed total score
appear exactly as they do in the pre-sort, input-order list); and every
returned candidate's scores satisfy `usage = log10(counter+1) · 10` (0 when
`counter = 0`) and `total = lexical + usage`. -/
theorem spec2_C8 (pb : Nat → ℚ) (lg : Int → ℚ) (query : Query) (services : List Service) :
    (rankCandidates pb lg query services).Perm
      ((services.filter (fun s => !s.disabled && !(score pb query s == 0))).map
        (mkCandidate pb lg query)) ∧
    (rankCandidates pb lg query services).Pairwise
      (fun x y => y.totalScore ≤ x.totalScore) ∧
    (∀ k : ℚ, (rankCandidates pb lg query services).filter (fun c => c.totalScore == k) =
      (buildCandidates pb lg query services).filter (fun c => c.totalScore == k)) ∧
    (∀ c ∈ rankCandidates pb lg query services,
      c.service.disabled = false ∧
      c.lexicalScore = score pb query c.service ∧ c.lexicalScore ≠ 0 ∧
      c.usageScore = (if 0 < c.service.counter then lg (c.service.counter + 1) * 10 else 0) ∧
      (c.service.counter = 0 → c.usageScore = 0) ∧
      c.totalScore = c.lexicalScore + c.usageScore) := by
  have hrank : rankCandidates pb lg query services =
      (bubblePass (fun c : Candidate => c.totalScore))^[(buildCandidates pb lg query services).length - 1]
        (buildCandidates pb lg query services) :=
    bubbleSortBy_eq_iterate (fun c : Candidate => c.totalScore)
      (buildCandidates pb lg query services)
  have hperm : (rankCandidates pb lg query services).Perm (buildCandidates pb lg query services) := by
    rw [hrank]
    exact bubblePass_iterate_perm _ _ _
  refine ⟨?_, ?_, ?_, ?_⟩
  · rw [← buildCandidates_eq]
    exact hperm
  · rw [hrank]
    apply bubblePass_iterate_sorted
    omega
  · intro k
    rw [hrank]
    apply bubblePass_iterate_filter
    intro x y hx hy
    rw [beq_iff_eq] at hx hy
    rw [hx, hy]
    exact lt_irrefl k
  · intro c hc
    have hc2 : c ∈ buildCandidates pb lg query services := hperm.mem_iff.mp hc
    rw [buildCandidates_eq] at hc2
    obtain ⟨s, hs, rfl⟩ := List.mem_map.mp hc2
    have hsp := List.of_mem_filter hs
    simp only [Bool.and_eq_true, Bool.not_eq_true', beq_eq_false_iff_ne] at hsp
    refine ⟨hsp.1, rfl, hsp.2, ?_, ?_, rfl⟩
    · show (if 0 < s.counter then lg (s.counter + 1) * ScoreUsageWeight * 100 else 0) =
        (if 0 < s.counter then lg (s.counter + 1) * 10 else 0)
      by_cases hcnt : 0 < s.counter
      · rw [if_pos hcnt, if_pos hcnt, ScoreUsageWeight]
        ring
      · rw [if_neg hcnt, if_neg hcnt]
    · intro hzero
      have hz : s.counter = 0 := hzero
      show (if 0 < s.counter then lg (s.counter + 1) * ScoreUsageWeight * 100 else 0) = 0
      rw [if_neg (by rw [hz]; exact lt_irrefl 0)]

/-- Witness for C8 at a concrete two-service input: the disabled service is
dropped, and the remaining candidate's fields follow the formula. -/
theorem spec2_C8_witness :
    ∀ c ∈ rankCandidates (fun _ => 1) (fun _ => 1) (parseQuery (gs "jellyfin"))
        [⟨gs "jellyfin.example.com", gs "jellyfin.example.com", gs "jellyfin",
          [gs "homepage"], 0, 5, 0, 0, 0, false⟩],
      c.service.disabled = false ∧
      c.lexicalScore = score (fun _ => 1) (parseQuery (gs "jellyfin")) c.service ∧
      c.lexicalScore ≠ 0 ∧
      c.usageScore = (if 0 < c.service.counter then (fun _ : Int => (1 : ℚ)) (c.service.counter + 1) * 10 else 0) ∧
      (c.service.counter = 0 → c.usageScore = 0) ∧
      c.totalScore = c.lexicalScore + c.usageScore :=
  (spec2_C8 (fun _ => 1) (fun _ => 1) (parseQuery (gs "jellyfin"))
    [⟨gs "jellyfin.example.com", gs "jellyfin.example.com", gs "jellyfin",
      [gs "homepage"], 0, 5, 0, 0, 0, false⟩]).2.2.2

/-! ## C1: where the allow-list protects the redirect, and where it does not -/

theorem scoreBookmark_chat :
    scoreBookmark (gs "chatgpt") chatBookmark = ScoreExactMatch + ScoreExactHostnameBonus := by
  rw [scoreBookmark, if_neg (by decide),
    show toLower (trimSpace (gs "chatgpt")) = gs "chatgpt" from by decide,
    show toLower chatBookmark.abbr = gs "chatgpt" from by decide,
    scoreBookmarkBody, if_pos rfl]

theorem rankBookmark_chat :
    rankBookmarkCandidates (gs "chatgpt") [chatBookmark] =
      [⟨chatBookmark, scoreBookmark (gs "chatgpt") chatBookmark⟩] := by
  have hbuild : buildBookmarkCandidates (gs "chatgpt") [chatBookmark] =
      [⟨chatBookmark, scoreBookmark (gs "chatgpt") chatBookmark⟩] := by
    rw [buildBookmarkCandidates, if_neg (by decide),
      if_neg (by rw [scoreBookmark_chat, ScoreExactMatch, ScoreExactHostnameBonus]; norm_num)]
    rfl
  rw [rankBookmarkCandidates, hbuild]
  rfl

theorem c1Result_eq : c1Result = ⟨gs "https://chat.openai.com/", c1State, []⟩ := by
  rw [c1Result, searchHandler, if_neg (by decide), if_pos (by decide), handleBookmarkSearch,
    show trimSpace (trimLead (trimSpace (gs "@chatgpt")) (gs "@")) = gs "chatgpt" from by decide,
    if_neg (by decide),
    show c1State.bookmarks.map Prod.snd = [chatBookmark] from by decide,
    if_neg (by decide), rankBookmark_chat]
  rfl

/-- C1: the claim fails on the code in the bookmark realm: `Resolve("@chatgpt")`
on a catalog holding the `ChatGPT` bookmark returns a 302 whose `Location` is
`https://chat.openai.com/`, which is neither the home URL nor a URL whose
host is allowed by the allow-list `[example.com]` (bookmark redirects bypass
the allow-list entirely). -/
theorem spec2_C1_counterexample :
    ¬ (c1Result.location = c1Deps.homepageURL ∨
       isAllowedRedirect (urlHost c1Result.location) c1Deps.allowedDomains = true) := by
  rw [c1Result_eq]
  decide

theorem validateLoop_loc (d : Deps) (probe : GoStr → Bool) (st : ServerState)
    (query : GoStr) (cands : List Candidate) :
    (validateLoop d probe st query cands).location = d.homepageURL ∨
    ∃ hst, isAllowedRedirect hst d.allowedDomains = true ∧
      (validateLoop d probe st query cands).location = gs "https://" ++ hst := by
  induction cands with
  | nil => left; rfl
  | cons c rest ih =>
    rw [validateLoop]
    by_cases h1 : isAllowedRedirect c.service.hostname d.allowedDomains = true
    · rw [if_neg (by simp [h1])]
      by_cases h2 : ¬ d.skipTLSValidation ∧ ¬ probe c.service.hostname
      · rw [if_pos h2]
        exact ih
      · rw [if_neg h2]
        exact Or.inr ⟨c.service.hostname, h1, rfl⟩
    · rw [if_pos (by simp [h1])]
      exact ih

theorem handleServiceSearch_loc (d : Deps) (probe : GoStr → Bool) (pb : Nat → ℚ)
    (lg : Int → ℚ) (st : ServerState) (query : GoStr) :
    (handleServiceSearch d probe pb lg st query).location = d.homepageURL ∨
    ∃ hst, isAllowedRedirect hst d.allowedDomains = true ∧
      (handleServiceSearch d probe pb lg st query).location = gs "https://" ++ hst := by
  rw [handleServiceSearch]
  by_cases h1 : getAllServices st.services = []
  · rw [if_pos h1]
    exact Or.inl rfl
  · rw [if_neg h1]
    by_cases h2 : rankCandidates pb lg (parseQuery query) (getAllServices st.services) = []
    · rw [if_pos h2]
      exact Or.inl rfl
    · rw [if_neg h2]
      exact validateLoop_loc d probe st query _

theorem handleCachedService_loc (d : Deps) (probe : GoStr → Bool) (st : ServerState)
    (query loc : GoStr) (st1 : ServerState) (inc : List GoStr)
    (h : handleCachedService d probe st query = (st1, inc, some loc)) :
    loc = d.homepageURL ∨
    ∃ hst, isAllowedRedirect hst d.allowedDomains = true ∧ loc = gs "https://" ++ hst := by
  rw [handleCachedService] at h
  cases hl : lookupAssoc st.cache query with
  | none =>
    rw [hl] at h
    simp at h
  | some cachedHostname =>
    rw [hl] at h
    dsimp only at h
    by_cases hce : cachedHostname = []
    · rw [if_pos hce] at h
      simp at h
    · rw [if_neg hce] at h
      by_cases hpr : probe cachedHostname = true
      · rw [if_pos hpr] at h
        by_cases hal : isAllowedRedirect cachedHostname d.allowedDomains = true
        · rw [if_pos hal] at h
          simp only [Prod.mk.injEq, Option.some.injEq] at h
          exact Or.inr ⟨cachedHostname, hal, h.2.2.symm⟩
        · rw [if_neg hal] at h
          simp only [Prod.mk.injEq, Option.some.injEq] at h
          exact Or.inl h.2.2.symm
      · rw [if_neg hpr] at h
        simp at h

/-- C1 (amended): in the service and subdomain realms (a trimmed query that
is nonempty after trimming and starts with neither `@` nor `/`), every
response's `Location` is either the configured home URL or `https://h` for a
hostname `h` allowed by the redirect allow-list.  The bookmark realm instead
redirects to the stored bookmark URL and the internal realm to
`https://<request host><endpoint>`, neither checked against the allow-list
(see the counterexample). -/
theorem spec2_C1_amended (d : Deps) (probe : GoStr → Bool) (pb : Nat → ℚ) (lg : Int → ℚ)
    (host : GoStr) (st : ServerState) (rawQ : GoStr)
    (hb : startsWith (trimSpace rawQ) (gs "@") = false)
    (hi : startsWith (trimSpace rawQ) (gs "/") = false) :
    (searchHandler d probe pb lg host st rawQ).location = d.homepageURL ∨
    ∃ hst, isAllowedRedirect hst d.allowedDomains = true ∧
      (searchHandler d probe pb lg host st rawQ).location = gs "https://" ++ hst := by
  rw [searchHandler]
  by_cases h0 : trimSpace rawQ = []
  · rw [if_pos h0]
    exact Or.inl rfl
  · rw [if_neg h0, if_neg (by simp [hb]), if_neg (by simp [hi])]
    rcases hcs : handleCachedService d probe st (trimSpace rawQ) with ⟨st1, inc, oloc⟩
    cases oloc with
    | some loc =>
      exact handleCachedService_loc d probe st (trimSpace rawQ) loc st1 inc hcs
    | none =>
      exact handleServiceSearch_loc d probe pb lg st1 (trimSpace rawQ)

/-- Witness for C1 (amended): the C3 scenario's query `q` is in the service
realm, and its response location is the home URL or an allowed host. -/
theorem spec2_C1_witness :
    (startsWith (trimSpace (gs "q")) (gs "@") = false ∧
     startsWith (trimSpace (gs "q")) (gs "/") = false) ∧
    ((searchHandler c3Deps (fun _ => true) (fun _ => 1) (fun _ => 1)
        (gs "jump.example.com") c3State (gs "q")).location = c3Deps.homepageURL ∨
     ∃ hst, isAllowedRedirect hst c3Deps.allowedDomains = true ∧
       (searchHandler c3Deps (fun _ => true) (fun _ => 1) (fun _ => 1)
         (gs "jump.example.com") c3State (gs "q")).location = gs "https://" ++ hst) :=
  ⟨⟨by decide, by decide⟩,
    spec2_C1_amended c3Deps (fun _ => true) (fun _ => 1) (fun _ => 1)
      (gs "jump.example.com") c3State (gs "q") (by decide) (by decide)⟩

/-! ## C4: the garbage collector never fires while reloads continue -/

theorem reconcile_explicit (g m p : Int) (hg : g - m < 30) :
    collectServices g 30 (reload m gcCatalog (gcExplicitState p)) = gcExplicitState m := by
  have hrel : reload m gcCatalog (gcExplicitState p) =
      [(gs "kept.example.com", keptAt m), (gs "gone.example.com", goneAt m)] := rfl
  have hkept : gcShouldDelete g 30 (keptAt m) = false := rfl
  have hgone : gcShouldDelete g 30 (goneAt m) = false := by
    have hlt : ¬ (30 ≤ g - m) := by omega
    simp [gcShouldDelete, goneAt, vanishedService, hlt]
  rw [collectServices, hrel]
  simp only [List.filter_cons, List.filter_nil, hkept, hgone, Bool.not_false, if_true]
  rfl

theorem gcStateAt_eq (n : Nat) : gcStateAt (n + 1) = gcExplicitState ((n : Int) + 1) := by
  induction n with
  | zero =>
    show reconcileStep 0 gcState0 = gcExplicitState 1
    decide
  | succ n ih =>
    show reconcileStep (n + 1) (gcStateAt (n + 1)) = _
    rw [ih, reconcileStep]
    exact reconcile_explicit _ _ _ (by omega)

/-- C4: the code violates the claim.  In the scenario where
`gone.example.com` vanishes from the catalog before the first pass and
reload + GC passes run at instants 1, 2, 3, … (one per day, the default
`reload_interval` and `gc_interval`) with the default 30-day `gc_threshold`,
the entry is STILL in the index after every pass `n + 1`, with `disabled =
true` and `updated_at` re-stamped to the instant of that very pass — so `now
− updated_at` is always 0 at GC time and no GC pass ever hard-deletes it,
contradicting the claim's "some later GC pass … deletes it from the index". -/
theorem spec2_C4 (n : Nat) :
    ∃ s, lookupAssoc (gcStateAt (n + 1)) (gs "gone.example.com") = some s ∧
      s.disabled = true ∧ s.updatedAt = (n : Int) + 1 := by
  refine ⟨goneAt ((n : Int) + 1), ?_, rfl, rfl⟩
  rw [gcStateAt_eq n]
  rfl

end Jump
